import Mathlib

/-!
# DS18B20 one-wire driver (`ds18b20.c`)

A shallow embedding of the bit-banged DS18B20 driver.  The driver talks to the
outside world through three pin macros and one delay routine only, so the state
threaded through every function is the data line as the driver sees it:

* `line`  : the level the pin shows at the driver's n-th read of it
            (`true` = `GPIO_PIN_SET`, `false` = `GPIO_PIN_RESET`);
* `reads` : how many reads of the pin have happened so far;
* `trace` : every pin write, pin read and delay request, oldest first.

The driver never looks at a clock, so whatever the electrical behaviour of the
line is, one run of the driver sees it only as the sequence of levels returned
by its successive reads; quantifying over `line` covers every line behaviour.

Machine integers: `uint8_t` values are naturals below 256, `short` is the
16-bit two's-complement type of the STM32 (Cortex-M) ABI, and a conversion to
either type reduces modulo 2^8 resp. 2^16.
-/

namespace DS18B20

/-- One observable step of the driver on the data line. -/
inductive Action where
  | driveLow
  | release
  | delay (us : Nat)
  | sample (level : Bool)
  deriving DecidableEq, Repr

/-- The data line as seen by the driver, together with the history of the run. -/
structure Bus where
  line : Nat → Bool
  reads : Nat
  trace : List Action

/-- `CLR_DS18B20()`: `HAL_GPIO_WritePin(.., GPIO_PIN_RESET)`, the pin is driven low. -/
def CLR_DS18B20 (s : Bus) : Bus :=
  { s with trace := s.trace ++ [Action.driveLow] }

/-- `SET_DS18B20()`: `HAL_GPIO_WritePin(.., GPIO_PIN_SET)`, the pin is released high. -/
def SET_DS18B20 (s : Bus) : Bus :=
  { s with trace := s.trace ++ [Action.release] }

/-- `DS18B20_DQ_IN`: `HAL_GPIO_ReadPin(..)`, one read of the pin level. -/
def DS18B20_DQ_IN (s : Bus) : Bool × Bus :=
  (s.line s.reads,
   { s with reads := s.reads + 1, trace := s.trace ++ [Action.sample (s.line s.reads)] })

/-- `delay_us(value)`: the busy-wait `i = value * 50; while (i--);`.  It touches
neither the pin nor any driver variable; the request is recorded with the number
of microseconds asked for. -/
def delay_us (value : Nat) (s : Bus) : Bus :=
  { s with trace := s.trace ++ [Action.delay value] }

/-- `DS18B20_Rst`: pull low, 750 us, release, 15 us. -/
def DS18B20_Rst (s : Bus) : Bus :=
  let s := CLR_DS18B20 s
  let s := delay_us 750 s
  let s := SET_DS18B20 s
  delay_us 15 s

/-- The two polling loops of `DS18B20_Check`:
`while ((DS18B20_DQ_IN == lvl) && retry < bound) { retry++; delay_us(1); }`
(`lvl = true` for the first loop, which reads `DS18B20_DQ_IN && ..`, `lvl = false`
for the second, which reads `!DS18B20_DQ_IN && ..`).  The pin is read first on
every evaluation of the condition.  `retry` is a `uint8_t`.  The first argument
bounds the number of evaluations of the condition; `pollWhile_fuel` shows that
`bound + 1` of them always suffice.  Returns the final `retry`. -/
def pollWhile (lvl : Bool) (bound : Nat) : Nat → Nat → Bus → Nat × Bus
  | 0, retry, s => (retry, s)
  | fuel + 1, retry, s =>
    let r := DS18B20_DQ_IN s
    if r.1 = lvl ∧ retry < bound then
      pollWhile lvl bound fuel ((retry + 1) % 256) (delay_us 1 r.2)
    else
      (retry, r.2)

/-- `DS18B20_Check`: wait for the presence pulse; 1 = no sensor, 0 = sensor present. -/
def DS18B20_Check (s : Bus) : Nat × Bus :=
  let r1 := pollWhile true 200 201 0 s
  if r1.1 ≥ 200 then
    (1, r1.2)
  else
    let r2 := pollWhile false 240 241 0 r1.2
    if r2.1 ≥ 240 then
      (1, r2.2)
    else
      (0, r2.2)

/-- `DS18B20_Read_Bit`: one read time slot. -/
def DS18B20_Read_Bit (s : Bus) : Nat × Bus :=
  let s := CLR_DS18B20 s
  let s := delay_us 2 s
  let s := SET_DS18B20 s
  let s := delay_us 12 s
  let r := DS18B20_DQ_IN s
  let data := if r.1 then 1 else 0
  let s := delay_us 50 r.2
  (data, s)

/-- The body of the `for (i = 1; i <= 8; i++)` loop of `DS18B20_Read_Byte`, with the
number of iterations still to run: `j = DS18B20_Read_Bit(); dat = (j << 7) | (dat >> 1);`
(the assignment converts the `int` result back to `uint8_t`). -/
def readByteLoop : Nat → Nat → Bus → Nat × Bus
  | 0, dat, s => (dat, s)
  | n + 1, dat, s =>
    let r := DS18B20_Read_Bit s
    readByteLoop n (((r.1 <<< 7) ||| (dat >>> 1)) % 256) r.2

/-- `DS18B20_Read_Byte`. -/
def DS18B20_Read_Byte (s : Bus) : Nat × Bus :=
  readByteLoop 8 0 s

/-- The body of the `for (j = 1; j <= 8; j++)` loop of `DS18B20_Write_Byte`, with the
number of iterations still to run. -/
def writeByteLoop : Nat → Nat → Bus → Bus
  | 0, _, s => s
  | n + 1, dat, s =>
    let testb := dat &&& 0x01
    let dat := dat >>> 1
    if testb ≠ 0 then
      let s := CLR_DS18B20 s
      let s := delay_us 2 s
      let s := SET_DS18B20 s
      let s := delay_us 60 s
      writeByteLoop n dat s
    else
      let s := CLR_DS18B20 s
      let s := delay_us 60 s
      let s := SET_DS18B20 s
      let s := delay_us 2 s
      writeByteLoop n dat s

/-- `DS18B20_Write_Byte(dat)`; the argument is converted to `uint8_t` on entry. -/
def DS18B20_Write_Byte (dat : Nat) (s : Bus) : Bus :=
  writeByteLoop 8 (dat % 256) s

/-- `DS18B20_Start`: reset, presence check (result dropped), skip ROM, convert T. -/
def DS18B20_Start (s : Bus) : Bus :=
  let s := DS18B20_Rst s
  let s := (DS18B20_Check s).2
  let s := DS18B20_Write_Byte 0xcc s
  DS18B20_Write_Byte 0x44 s

/-- `DS18B20_Init`: release the line, reset, and return the presence check's result. -/
def DS18B20_Init (s : Bus) : Nat × Bus :=
  let s := SET_DS18B20 s
  let s := DS18B20_Rst s
  DS18B20_Check s

/-- Conversion of an `int` to `uint8_t`. -/
def toUint8 (x : Int) : Int := x % 256

/-- Conversion of an `int` to the 16-bit `short`. -/
def toShort (x : Int) : Int := (x + 32768) % 65536 - 32768

/-- Lines 188-205 of `DS18B20_Get_Temp`: the decode of the two scratchpad bytes.
`~TH` is computed on the promoted `int` (`-TH - 1`) and stored back into the
`uint8_t`.  `(float)tem * 0.625f` is exact: `tem` is a 16-bit integer, `0.625` is
`5 / 8`, and `5 * tem` needs fewer than the 24 bits of a binary32 significand;
the assignment to `short` then drops the fraction (truncation toward zero). -/
def Get_Temp_decode (TL TH : Nat) : Int :=
  let TH1 : Int := if TH > 7 then toUint8 (-(TH : Int) - 1) else TH
  let TL1 : Int := if TH > 7 then toUint8 (-(TL : Int) - 1) else TL
  let temp : Nat := if TH > 7 then 0 else 1
  let tem := toShort TH1
  let tem := toShort (tem * 256)
  let tem := toShort (tem + TL1)
  let tem := toShort (Int.tdiv (tem * 5) 8)
  if temp ≠ 0 then tem else toShort (-tem)

/-- Lines 180-186 of `DS18B20_Get_Temp`: the bus transaction that fetches the two
scratchpad bytes, returned as `(TL, TH)`. -/
def Get_Temp_bytes (s : Bus) : (Nat × Nat) × Bus :=
  let s := DS18B20_Start s
  let s := DS18B20_Rst s
  let s := (DS18B20_Check s).2
  let s := DS18B20_Write_Byte 0xcc s
  let s := DS18B20_Write_Byte 0xbe s
  let rl := DS18B20_Read_Byte s
  let rh := DS18B20_Read_Byte rl.2
  ((rl.1, rh.1), rh.2)

/-- `DS18B20_Get_Temp`: fetch the scratchpad bytes, then decode them. -/
def DS18B20_Get_Temp (s : Bus) : Int × Bus :=
  let r := Get_Temp_bytes s
  (Get_Temp_decode r.1.1 r.1.2, r.2)

/-! ## Vocabulary of the statements -/

/-- The four actions of a reset pulse. -/
def resetPulse : List Action :=
  [Action.driveLow, Action.delay 750, Action.release, Action.delay 15]

/-- The four actions of a write time slot carrying bit `b`. -/
def writeSlot (b : Bool) : List Action :=
  if b then [Action.driveLow, Action.delay 2, Action.release, Action.delay 60]
  else [Action.driveLow, Action.delay 60, Action.release, Action.delay 2]

/-- The six actions of a read time slot whose read of the pin returned `b`. -/
def readSlot (b : Bool) : List Action :=
  [Action.driveLow, Action.delay 2, Action.release, Action.delay 12, Action.sample b,
   Action.delay 50]

/-- Bit `k` of `v`. -/
def bitOf (v k : Nat) : Bool := decide (v / 2 ^ k % 2 = 1)

/-- A level as the number 0 or 1. -/
def bitVal (b : Bool) : Nat := if b then 1 else 0

/-- Eight write slots carrying bits 0, 1, .., 7 of `v`, in that order. -/
def byteSlots (v : Nat) : List Action :=
  (List.range 8).flatMap (fun k => writeSlot (bitOf v k))

/-- The write slots of `n` more rounds of `writeByteLoop` started with `dat`. -/
def slotsFrom : Nat → Nat → List Action
  | 0, _ => []
  | n + 1, dat => writeSlot (decide (dat % 2 = 1)) ++ slotsFrom n (dat / 2)

/-- The value `readByteLoop` leaves in `dat` after `n` more rounds, as a function of the
levels `f 0, f 1, ..` its reads will return. -/
def shiftIn : Nat → Nat → (Nat → Bool) → Nat
  | 0, dat, _ => dat
  | n + 1, dat, f => shiftIn n (bitVal (f 0) * 128 + dat / 2) (fun k => f (k + 1))

/-- The actions of `n` read slots whose reads return `f 0, f 1, ..`. -/
def readSlotsFrom : Nat → (Nat → Bool) → List Action
  | 0, _ => []
  | n + 1, f => readSlot (f 0) ++ readSlotsFrom n (fun k => f (k + 1))

/-- The actions of `n` completed polling rounds, each of which read `lvl`. -/
def polls (lvl : Bool) : Nat → List Action
  | 0 => []
  | n + 1 => Action.sample lvl :: Action.delay 1 :: polls lvl n

/-- The bus after a polling loop that ran `n` rounds and then left on its next read. -/
def afterPoll (lvl : Bool) (n : Nat) (s : Bus) : Bus :=
  ⟨s.line, s.reads + n + 1, s.trace ++ polls lvl n ++ [Action.sample (s.line (s.reads + n))]⟩

/-- The actions a run added to the trace, given the bus before and after it. -/
def emitted (s s1 : Bus) : List Action :=
  s1.trace.drop s.trace.length

/-- Total of the microseconds requested by the delays in a list of actions. -/
def delayTotal : List Action → Nat
  | [] => 0
  | Action.delay us :: rest => us + delayTotal rest
  | _ :: rest => delayTotal rest

/-- The levels read by the samples in a list of actions, in order. -/
def sampledLevels : List Action → List Bool
  | [] => []
  | Action.sample b :: rest => b :: sampledLevels rest
  | _ :: rest => sampledLevels rest

/-- A presence pulse as `DS18B20_Check` accepts it: counting the reads from the current
one, the line is read low for the first time at read `j < 200`, and it is read high
again at one of the 240 reads that follow. -/
def presencePulse (s : Bus) : Prop :=
  ∃ j, j < 200 ∧ (∀ i, i < j → s.line (s.reads + i) = true) ∧ s.line (s.reads + j) = false ∧
    ∃ k, k < 240 ∧ s.line (s.reads + j + 1 + k) = true

instance (s : Bus) : Decidable (presencePulse s) := by
  unfold presencePulse
  infer_instance

/-- Loopback recorder: every low pulse (drive low, delay, release) found in the actions
is recorded as bit 1 when it lasted 2 us and as bit 0 when it lasted 60 us. -/
def recordSlots : List Action → List Bool
  | [] => []
  | Action.driveLow :: Action.delay d :: Action.release :: rest =>
    if d = 2 then true :: recordSlots rest
    else if d = 60 then false :: recordSlots rest
    else recordSlots rest
  | _ :: rest => recordSlots rest

/-- Loopback replay: the n-th read of the line returns the n-th recorded bit (high for 1,
low for 0); the line idles high once the recording is used up. -/
def replay (bits : List Bool) : Nat → Bool :=
  fun k => bits.getD k true

/-- The loopback line after a write that took the bus from `s` to `s1`: it replays the
bits recorded from the actions of that write. -/
def loopback (s s1 : Bus) : Bus :=
  ⟨replay (recordSlots (emitted s s1)), 0, s1.trace⟩

/-- The 16-bit two's-complement value held by the scratchpad bytes. -/
def rawReading (TL TH : Nat) : Int := toShort (256 * (TH : Int) + TL)

/-- The temperature in tenths of a degree for a raw reading of `r` sixteenths of a
degree: `r * 0.625` truncated toward zero. -/
def specTenths (r : Int) : Int := Int.tdiv (r * 5) 8

/-- A line that is high at every read. -/
def stuckHigh : Bus := ⟨fun _ => true, 0, []⟩

/-- A line that is low at every read. -/
def stuckLow : Bus := ⟨fun _ => false, 0, []⟩

/-- A line that is low for its first 241 reads and high from then on. -/
def lateHigh : Bus := ⟨fun k => decide (241 ≤ k), 0, []⟩

/-- A line that is high for 3 reads, low for the next 2 and high from then on. -/
def pulseLine : Bus := ⟨fun k => decide (k < 3 ∨ 5 ≤ k), 0, []⟩

/-- The byte assembled LSB first from the levels `f n, f (n + 1), .., f (n + 7)`. -/
def byteAt (f : Nat → Bool) (n : Nat) : Nat :=
  bitVal (f n) + 2 * bitVal (f (n + 1)) + 4 * bitVal (f (n + 2)) + 8 * bitVal (f (n + 3))
    + 16 * bitVal (f (n + 4)) + 32 * bitVal (f (n + 5)) + 64 * bitVal (f (n + 6))
    + 128 * bitVal (f (n + 7))

/-- The line actions in a list of actions: the pin writes and pin reads, without the
delays. -/
def lineActions : List Action → List Action
  | [] => []
  | Action.delay _ :: rest => lineActions rest
  | a :: rest => a :: lineActions rest

/-- Walk through a list of actions keeping track of whether the driver holds the line
low (`true` after a drive-low, `false` after a release).  The walk fails (`none`) at a
read of the pin taken while the line is held low; otherwise it ends with the final
state of the pin. -/
def lineWalk : Bool → List Action → Option Bool
  | held, [] => some held
  | _, Action.driveLow :: rest => lineWalk true rest
  | _, Action.release :: rest => lineWalk false rest
  | held, Action.delay _ :: rest => lineWalk held rest
  | held, Action.sample _ :: rest => if held then none else lineWalk false rest

/-- The microseconds requested by the delays up to the next release. -/
def lowWidthFrom : List Action → Nat
  | [] => 0
  | Action.release :: _ => 0
  | Action.delay us :: rest => us + lowWidthFrom rest
  | _ :: rest => lowWidthFrom rest

/-- For every drive-low in a list of actions, in order, the microseconds requested
between it and the next release: the widths of the low pulses. -/
def lowWidths : List Action → List Nat
  | [] => []
  | Action.driveLow :: rest => lowWidthFrom rest :: lowWidths rest
  | _ :: rest => lowWidths rest

/-- The temperature in whole degrees Celsius for a raw reading of `r` sixteenths of a
degree, truncated toward zero. -/
def specDegrees (r : Int) : Int := Int.tdiv r 16

/-- A line whose first read is high and whose next seven reads are low. -/
def firstBitHigh : Bus :=
  ⟨replay [true, false, false, false, false, false, false, false], 0, []⟩

/-- The writes to the pin in a list of actions: the drive-lows and releases, in order. -/
def pinWrites : List Action → List Action
  | [] => []
  | Action.driveLow :: rest => Action.driveLow :: pinWrites rest
  | Action.release :: rest => Action.release :: pinWrites rest
  | _ :: rest => pinWrites rest

/-- The line actions of `n` low pulses: `n` times a drive-low followed by a release. -/
def pulsePairs : Nat → List Action
  | 0 => []
  | n + 1 => Action.driveLow :: Action.release :: pulsePairs n

/-- The reads of the line in a list of actions, as line actions. -/
def sampleActions (l : List Action) : List Action :=
  (sampledLevels l).map Action.sample

/-! ## Lemmas -/

theorem pollWhile_run (lvl : Bool) (bound : Nat) (hb : bound < 256) :
    ∀ (n fuel retry : Nat) (s : Bus), n < fuel → retry + n ≤ bound →
      (∀ i, i < n → s.line (s.reads + i) = lvl) →
      (retry + n = bound ∨ s.line (s.reads + n) ≠ lvl) →
      pollWhile lvl bound fuel retry s =
        (retry + n, ⟨s.line, s.reads + n + 1,
          s.trace ++ polls lvl n ++ [Action.sample (s.line (s.reads + n))]⟩) := by
  intro n
  induction n with
  | zero =>
    intro fuel retry s hf _ _ hex
    obtain ⟨f, rfl⟩ : ∃ f, fuel = f + 1 := ⟨fuel - 1, by omega⟩
    have hc : ¬ (s.line s.reads = lvl ∧ retry < bound) := by
      rintro ⟨h1, h2⟩
      rcases hex with h | h
      · omega
      · exact h (by simpa using h1)
    simp [pollWhile, DS18B20_DQ_IN, hc, polls]
  | succ n ih =>
    intro fuel retry s hf hle hall hex
    obtain ⟨f, rfl⟩ : ∃ f, fuel = f + 1 := ⟨fuel - 1, by omega⟩
    have h0 : s.line s.reads = lvl := by simpa using hall 0 (by omega)
    have hr : retry < bound := by omega
    have hm : (retry + 1) % 256 = retry + 1 := Nat.mod_eq_of_lt (by omega)
    have hstep : pollWhile lvl bound (f + 1) retry s =
        pollWhile lvl bound f (retry + 1)
          ⟨s.line, s.reads + 1, s.trace ++ [Action.sample lvl] ++ [Action.delay 1]⟩ := by
      simp [pollWhile, DS18B20_DQ_IN, delay_us, h0, hr, hm]
    rw [hstep, ih f (retry + 1) _ (by omega) (by omega)]
    · simp [polls, Nat.add_assoc, Nat.add_comm 1 n]
    · intro i hi
      have := hall (i + 1) (by omega)
      simpa [Nat.add_assoc, Nat.add_comm 1 i] using this
    · rcases hex with h | h
      · left; omega
      · right; simpa [Nat.add_assoc, Nat.add_comm 1 n] using h

theorem exists_run (lvl : Bool) :
    ∀ (m : Nat) (f : Nat → Bool),
      ∃ n, n ≤ m ∧ (∀ i, i < n → f i = lvl) ∧ (n = m ∨ f n ≠ lvl) := by
  intro m
  induction m with
  | zero => intro f; exact ⟨0, le_refl _, fun i hi => absurd hi (by omega), Or.inl rfl⟩
  | succ m ih =>
    intro f
    by_cases h0 : f 0 = lvl
    · obtain ⟨n, hn, hall, hex⟩ := ih (fun i => f (i + 1))
      refine ⟨n + 1, by omega, ?_, ?_⟩
      · intro i hi
        cases i with
        | zero => exact h0
        | succ i => exact hall i (by omega)
      · rcases hex with h | h
        · left; omega
        · right; exact h
    · exact ⟨0, by omega, fun i hi => absurd hi (by omega), Or.inr h0⟩

theorem check_absent_A (s : Bus) (h : ∀ i, i < 200 → s.line (s.reads + i) = true) :
    DS18B20_Check s = (1, afterPoll true 200 s) := by
  have h1 := pollWhile_run true 200 (by omega) 200 201 0 s (by omega) (by omega) h (Or.inl rfl)
  simp [DS18B20_Check, h1, afterPoll]

theorem check_first_loop (s : Bus) (j : Nat) (hj : j < 200)
    (hhigh : ∀ i, i < j → s.line (s.reads + i) = true) (hlow : s.line (s.reads + j) = false) :
    pollWhile true 200 201 0 s = (j, afterPoll true j s) := by
  have h1 := pollWhile_run true 200 (by omega) j 201 0 s (by omega) (by omega) hhigh
    (Or.inr (by simp [hlow]))
  simpa [afterPoll] using h1

theorem check_absent_B (s : Bus) (j : Nat) (hj : j < 200)
    (hhigh : ∀ i, i < j → s.line (s.reads + i) = true) (hlow : s.line (s.reads + j) = false)
    (h : ∀ k, k < 240 → s.line (s.reads + j + 1 + k) = false) :
    DS18B20_Check s = (1, afterPoll false 240 (afterPoll true j s)) := by
  have h1 := check_first_loop s j hj hhigh hlow
  have h2 := pollWhile_run false 240 (by omega) 240 241 0 (afterPoll true j s) (by omega)
    (by omega) (by simpa [afterPoll] using h) (Or.inl rfl)
  have hj2 : ¬ (200 ≤ j) := by omega
  simp only [DS18B20_Check, h1, h2]
  simp [hj2, afterPoll]

theorem check_present (s : Bus) (j k : Nat) (hj : j < 200) (hk : k < 240)
    (hhigh : ∀ i, i < j → s.line (s.reads + i) = true) (hlow : s.line (s.reads + j) = false)
    (h : ∀ i, i < k → s.line (s.reads + j + 1 + i) = false)
    (hup : s.line (s.reads + j + 1 + k) = true) :
    DS18B20_Check s = (0, afterPoll false k (afterPoll true j s)) := by
  have h1 := check_first_loop s j hj hhigh hlow
  have h2 := pollWhile_run false 240 (by omega) k 241 0 (afterPoll true j s) (by omega)
    (by omega) (by simpa [afterPoll] using h) (Or.inr (by simp [afterPoll, hup]))
  have hj2 : ¬ (200 ≤ j) := by omega
  have hk2 : ¬ (240 ≤ k) := by omega
  simp only [DS18B20_Check, h1, h2]
  simp [hj2, hk2, afterPoll]

/-- Every run of `DS18B20_Check` is one of three: the line stays high for 200 reads,
or it is first read low at read `j < 200` and then stays low for 240 reads, or it is
read high again at read `k < 240` after that. -/
theorem check_cases (s : Bus) :
    ((∀ i, i < 200 → s.line (s.reads + i) = true) ∧
        DS18B20_Check s = (1, afterPoll true 200 s)) ∨
    (∃ j, j < 200 ∧ (∀ i, i < j → s.line (s.reads + i) = true) ∧
        s.line (s.reads + j) = false ∧
        (((∀ k, k < 240 → s.line (s.reads + j + 1 + k) = false) ∧
            DS18B20_Check s = (1, afterPoll false 240 (afterPoll true j s))) ∨
         (∃ k, k < 240 ∧ (∀ i, i < k → s.line (s.reads + j + 1 + i) = false) ∧
            s.line (s.reads + j + 1 + k) = true ∧
            DS18B20_Check s = (0, afterPoll false k (afterPoll true j s))))) := by
  obtain ⟨j, hj, hhigh, hex⟩ := exists_run true 200 (fun i => s.line (s.reads + i))
  have hlowj : j ≠ 200 → s.line (s.reads + j) = false := by
    intro hne
    rcases hex with h | h
    · exact absurd h hne
    · simpa using h
  by_cases hj200 : j = 200
  · subst hj200
    exact Or.inl ⟨hhigh, check_absent_A s hhigh⟩
  · right
    have hjlt : j < 200 := by omega
    have hlow := hlowj hj200
    refine ⟨j, hjlt, hhigh, hlow, ?_⟩
    obtain ⟨k, hk, hlows, hex2⟩ := exists_run false 240 (fun i => s.line (s.reads + j + 1 + i))
    by_cases hk240 : k = 240
    · subst hk240
      exact Or.inl ⟨hlows, check_absent_B s j hjlt hhigh hlow hlows⟩
    · right
      have hup : s.line (s.reads + j + 1 + k) = true := by
        rcases hex2 with h | h
        · exact absurd h hk240
        · simpa using h
      exact ⟨k, by omega, hlows, hup, check_present s j k hjlt (by omega) hhigh hlow hlows hup⟩

theorem rst_eq (s : Bus) :
    DS18B20_Rst s = ⟨s.line, s.reads, s.trace ++ resetPulse⟩ := by
  simp [DS18B20_Rst, CLR_DS18B20, SET_DS18B20, delay_us, resetPulse]

theorem writeByteLoop_eq :
    ∀ (n dat : Nat) (s : Bus),
      writeByteLoop n dat s = ⟨s.line, s.reads, s.trace ++ slotsFrom n dat⟩ := by
  intro n
  induction n with
  | zero => intro dat s; simp [writeByteLoop, slotsFrom]
  | succ n ih =>
    intro dat s
    rcases Nat.mod_two_eq_zero_or_one dat with h | h
    · simp [writeByteLoop, slotsFrom, ih, Nat.and_one_is_mod, Nat.shiftRight_one, h,
        CLR_DS18B20, SET_DS18B20, delay_us, writeSlot]
    · simp [writeByteLoop, slotsFrom, ih, Nat.and_one_is_mod, Nat.shiftRight_one, h,
        CLR_DS18B20, SET_DS18B20, delay_us, writeSlot]

theorem slotsFrom_eight (v : Nat) : slotsFrom 8 v = byteSlots v := by
  simp [slotsFrom, byteSlots, bitOf, List.range_succ, List.flatMap, Nat.div_div_eq_div_mul]

theorem write_byte_eq (v : Nat) (hv : v < 256) (s : Bus) :
    DS18B20_Write_Byte v s = ⟨s.line, s.reads, s.trace ++ byteSlots v⟩ := by
  simp [DS18B20_Write_Byte, writeByteLoop_eq, Nat.mod_eq_of_lt hv, slotsFrom_eight]

theorem read_bit_eq (s : Bus) :
    DS18B20_Read_Bit s =
      (if s.line s.reads then 1 else 0,
       ⟨s.line, s.reads + 1, s.trace ++ readSlot (s.line s.reads)⟩) := by
  simp [DS18B20_Read_Bit, DS18B20_DQ_IN, CLR_DS18B20, SET_DS18B20, delay_us, readSlot]

set_option maxRecDepth 100000 in
theorem shift_in_bit : ∀ j, j < 2 → ∀ dat, dat < 256 →
    ((j <<< 7) ||| (dat >>> 1)) % 256 = j * 128 + dat / 2 := by
  decide

theorem bitVal_le (b : Bool) : bitVal b ≤ 1 := by
  unfold bitVal; split <;> omega

theorem readByteLoop_eq :
    ∀ (n dat : Nat) (s : Bus), dat < 256 →
      readByteLoop n dat s =
        (shiftIn n dat (fun k => s.line (s.reads + k)),
         ⟨s.line, s.reads + n, s.trace ++ readSlotsFrom n (fun k => s.line (s.reads + k))⟩) := by
  intro n
  induction n with
  | zero => intro dat s _; simp [readByteLoop, shiftIn, readSlotsFrom]
  | succ n ih =>
    intro dat s hdat
    have hb := bitVal_le (s.line s.reads)
    have hsh := shift_in_bit (bitVal (s.line s.reads)) (by omega) dat hdat
    have hstep : readByteLoop (n + 1) dat s =
        readByteLoop n (bitVal (s.line s.reads) * 128 + dat / 2)
          ⟨s.line, s.reads + 1, s.trace ++ readSlot (s.line s.reads)⟩ := by
      simp only [readByteLoop, read_bit_eq]
      rw [show (if s.line s.reads = true then 1 else 0) = bitVal (s.line s.reads) from rfl, hsh]
    rw [hstep, ih _ _ (by omega)]
    simp [shiftIn, readSlotsFrom, Nat.add_assoc, Nat.add_comm 1]

theorem shiftIn_eight (f : Nat → Bool) :
    shiftIn 8 0 f = bitVal (f 0) + 2 * bitVal (f 1) + 4 * bitVal (f 2) + 8 * bitVal (f 3)
      + 16 * bitVal (f 4) + 32 * bitVal (f 5) + 64 * bitVal (f 6) + 128 * bitVal (f 7) := by
  have h0 := bitVal_le (f 0)
  have h1 := bitVal_le (f 1)
  have h2 := bitVal_le (f 2)
  have h3 := bitVal_le (f 3)
  have h4 := bitVal_le (f 4)
  have h5 := bitVal_le (f 5)
  have h6 := bitVal_le (f 6)
  have h7 := bitVal_le (f 7)
  simp only [shiftIn, Nat.reduceAdd, Nat.zero_add]
  generalize bitVal (f 0) = b0 at *
  generalize bitVal (f 1) = b1 at *
  generalize bitVal (f 2) = b2 at *
  generalize bitVal (f 3) = b3 at *
  generalize bitVal (f 4) = b4 at *
  generalize bitVal (f 5) = b5 at *
  generalize bitVal (f 6) = b6 at *
  generalize bitVal (f 7) = b7 at *
  omega

theorem readSlotsFrom_eight (f : Nat → Bool) :
    readSlotsFrom 8 f = (List.range 8).flatMap (fun k => readSlot (f k)) := by
  simp [readSlotsFrom, List.range_succ, List.flatMap]

theorem read_byte_eq (s : Bus) :
    DS18B20_Read_Byte s =
      (bitVal (s.line s.reads) + 2 * bitVal (s.line (s.reads + 1))
        + 4 * bitVal (s.line (s.reads + 2)) + 8 * bitVal (s.line (s.reads + 3))
        + 16 * bitVal (s.line (s.reads + 4)) + 32 * bitVal (s.line (s.reads + 5))
        + 64 * bitVal (s.line (s.reads + 6)) + 128 * bitVal (s.line (s.reads + 7)),
       ⟨s.line, s.reads + 8,
        s.trace ++ (List.range 8).flatMap (fun k => readSlot (s.line (s.reads + k)))⟩) := by
  unfold DS18B20_Read_Byte
  rw [readByteLoop_eq 8 0 s (by omega), shiftIn_eight, readSlotsFrom_eight]
  rfl

theorem recordSlots_writeSlot (b : Bool) (rest : List Action) :
    recordSlots (writeSlot b ++ rest) = b :: recordSlots rest := by
  cases b <;> simp [writeSlot, recordSlots]

theorem recordSlots_slots (g : Nat → Bool) (l : List Nat) :
    recordSlots (l.flatMap (fun k => writeSlot (g k))) = l.map g := by
  induction l with
  | nil => simp [recordSlots]
  | cons a l ih => simp [List.flatMap_cons, recordSlots_writeSlot, ih]

theorem bitVal_bitOf (v k : Nat) : bitVal (bitOf v k) = v / 2 ^ k % 2 := by
  unfold bitVal bitOf
  rcases Nat.mod_two_eq_zero_or_one (v / 2 ^ k) with h | h <;> simp [h]

theorem toShort_of_range (x : Int) (h1 : -32768 ≤ x) (h2 : x ≤ 32767) : toShort x = x := by
  unfold toShort; omega

theorem decode_positive (TL TH : Nat) (hTL : TL < 256) (hTH : TH ≤ 7) :
    Get_Temp_decode TL TH = (((256 * TH + TL) * 5 / 8 : Nat) : Int) := by
  have h7 : ¬ (TH > 7) := by omega
  have hnn : (0 : Int) ≤ ((TH : Int) * 256 + TL) * 5 := by positivity
  have e1 : toShort (TH : Int) = TH := toShort_of_range _ (by omega) (by omega)
  have e2 : toShort ((TH : Int) * 256) = TH * 256 := toShort_of_range _ (by omega) (by omega)
  have e3 : toShort ((TH : Int) * 256 + TL) = TH * 256 + TL :=
    toShort_of_range _ (by omega) (by omega)
  have e4 : toShort ((((TH : Int) * 256 + TL) * 5) / 8) = (((TH : Int) * 256 + TL) * 5) / 8 :=
    toShort_of_range _ (by omega) (by omega)
  simp only [Get_Temp_decode, h7, if_false, e1, e2, e3]
  rw [Int.tdiv_eq_ediv hnn (by omega), e4]
  simp only [ne_eq, one_ne_zero, not_false_eq_true, if_true]
  push_cast
  omega

theorem decode_negative (TL TH : Nat) (hTL : TL < 256) (hlo : 128 ≤ TH) (hhi : TH < 256) :
    Get_Temp_decode TL TH = -(((256 * (255 - TH) + (255 - TL)) * 5 / 8 : Nat) : Int) := by
  have h7 : TH > 7 := by omega
  have u1 : toUint8 (-(TH : Int) - 1) = 255 - TH := by unfold toUint8; omega
  have u2 : toUint8 (-(TL : Int) - 1) = 255 - TL := by unfold toUint8; omega
  have e1 : toShort (255 - (TH : Int)) = 255 - TH := toShort_of_range _ (by omega) (by omega)
  have e2 : toShort ((255 - (TH : Int)) * 256) = (255 - TH) * 256 :=
    toShort_of_range _ (by omega) (by omega)
  have e3 : toShort ((255 - (TH : Int)) * 256 + (255 - TL)) = (255 - TH) * 256 + (255 - TL) :=
    toShort_of_range _ (by omega) (by omega)
  have hnn : (0 : Int) ≤ ((255 - (TH : Int)) * 256 + (255 - TL)) * 5 := by omega
  have e4 : toShort ((((255 - (TH : Int)) * 256 + (255 - TL)) * 5) / 8)
      = (((255 - (TH : Int)) * 256 + (255 - TL)) * 5) / 8 :=
    toShort_of_range _ (by omega) (by omega)
  have e5 : toShort (-((((255 - (TH : Int)) * 256 + (255 - TL)) * 5) / 8))
      = -((((255 - (TH : Int)) * 256 + (255 - TL)) * 5) / 8) :=
    toShort_of_range _ (by omega) (by omega)
  simp only [Get_Temp_decode, h7, if_true, u1, u2, e1, e2, e3]
  rw [Int.tdiv_eq_ediv hnn (by omega), e4]
  simp only [ne_eq, not_true_eq_false, if_false, e5]
  push_cast [Nat.cast_sub (show TH ≤ 255 by omega), Nat.cast_sub (show TL ≤ 255 by omega)]
  omega

theorem pollWhile_fuel (lvl : Bool) (bound : Nat) (hb : bound < 256) (fuel retry : Nat)
    (s : Bus) (hr : retry ≤ bound) (hf : bound - retry < fuel) :
    pollWhile lvl bound fuel retry s = pollWhile lvl bound (bound - retry + 1) retry s := by
  obtain ⟨n, hn, hall, hex⟩ := exists_run lvl (bound - retry) (fun i => s.line (s.reads + i))
  have hex2 : retry + n = bound ∨ s.line (s.reads + n) ≠ lvl := by
    rcases hex with h | h
    · left; omega
    · right; exact h
  rw [pollWhile_run lvl bound hb n fuel retry s (by omega) (by omega) hall hex2,
    pollWhile_run lvl bound hb n (bound - retry + 1) retry s (by omega) (by omega) hall hex2]

theorem polls_mem (lvl : Bool) :
    ∀ (n : Nat) (a : Action), a ∈ polls lvl n → a = Action.delay 1 ∨ ∃ b, a = Action.sample b := by
  intro n
  induction n with
  | zero => intro a ha; simp [polls] at ha
  | succ n ih =>
    intro a ha
    simp only [polls, List.mem_cons] at ha
    rcases ha with h | h | h
    · exact Or.inr ⟨lvl, h⟩
    · exact Or.inl h
    · exact ih a h

theorem check_emits_polls (s : Bus) :
    ∃ p : List Action, (∀ a, a ∈ p → a = Action.delay 1 ∨ ∃ b, a = Action.sample b) ∧
      (DS18B20_Check s).2.trace = s.trace ++ p := by
  rcases check_cases s with ⟨_, h⟩ | ⟨j, _, _, _, ⟨_, h⟩ | ⟨k, _, _, _, h⟩⟩
  · refine ⟨polls true 200 ++ [Action.sample (s.line (s.reads + 200))], ?_, ?_⟩
    · intro a ha
      rcases List.mem_append.1 ha with h1 | h1
      · exact polls_mem _ _ _ h1
      · exact Or.inr ⟨_, by simpa using h1⟩
    · simp [h, afterPoll]
  · refine ⟨polls true j ++ [Action.sample (s.line (s.reads + j))] ++ polls false 240 ++
      [Action.sample (s.line (s.reads + j + 1 + 240))], ?_, ?_⟩
    · intro a ha
      simp only [List.mem_append, List.mem_singleton] at ha
      rcases ha with ((h1 | h1) | h1) | h1
      · exact polls_mem _ _ _ h1
      · exact Or.inr ⟨_, h1⟩
      · exact polls_mem _ _ _ h1
      · exact Or.inr ⟨_, h1⟩
    · simp [h, afterPoll]
  · refine ⟨polls true j ++ [Action.sample (s.line (s.reads + j))] ++ polls false k ++
      [Action.sample (s.line (s.reads + j + 1 + k))], ?_, ?_⟩
    · intro a ha
      simp only [List.mem_append, List.mem_singleton] at ha
      rcases ha with ((h1 | h1) | h1) | h1
      · exact polls_mem _ _ _ h1
      · exact Or.inr ⟨_, h1⟩
      · exact polls_mem _ _ _ h1
      · exact Or.inr ⟨_, h1⟩
    · simp [h, afterPoll]

theorem check_zero_iff (s : Bus) : (DS18B20_Check s).1 = 0 ↔ presencePulse s := by
  constructor
  · intro h0
    rcases check_cases s with ⟨_, h⟩ | ⟨j, hj, hhigh, hlow, ⟨_, h⟩ | ⟨k, hk, _, hup, _⟩⟩
    · rw [h] at h0; exact absurd h0 (by simp)
    · rw [h] at h0; exact absurd h0 (by simp)
    · exact ⟨j, hj, hhigh, hlow, k, hk, hup⟩
  · rintro ⟨j, hj, hhigh, hlow, k, hk, hup⟩
    rcases check_cases s with ⟨hA, _⟩ | ⟨j2, hj2, hhigh2, hlow2, ⟨hB, _⟩ | ⟨_, _, _, _, h⟩⟩
    · have := hA j hj
      rw [hlow] at this
      exact absurd this (by decide)
    · have hjj : j2 = j := by
        rcases Nat.lt_trichotomy j2 j with h | h | h
        · have := hhigh j2 h; rw [hlow2] at this; exact absurd this (by decide)
        · exact h
        · have := hhigh2 j h; rw [hlow] at this; exact absurd this (by decide)
      subst hjj
      have := hB k hk
      rw [hup] at this
      exact absurd this (by decide)
    · rw [h]

theorem check_zero_or_one (s : Bus) : (DS18B20_Check s).1 = 0 ∨ (DS18B20_Check s).1 = 1 := by
  rcases check_cases s with ⟨_, h⟩ | ⟨j, _, _, _, ⟨_, h⟩ | ⟨k, _, _, _, h⟩⟩
  · right; rw [h]
  · right; rw [h]
  · left; rw [h]

theorem delayTotal_writeSlot (b : Bool) (rest : List Action) :
    delayTotal (writeSlot b ++ rest) = 62 + delayTotal rest := by
  cases b <;> simp [writeSlot, delayTotal] <;> omega

theorem sampledLevels_writeSlot (b : Bool) (rest : List Action) :
    sampledLevels (writeSlot b ++ rest) = sampledLevels rest := by
  cases b <;> simp [writeSlot, sampledLevels]

theorem byteSlots_unfold (v : Nat) :
    byteSlots v = writeSlot (bitOf v 0) ++ (writeSlot (bitOf v 1) ++ (writeSlot (bitOf v 2) ++
      (writeSlot (bitOf v 3) ++ (writeSlot (bitOf v 4) ++ (writeSlot (bitOf v 5) ++
      (writeSlot (bitOf v 6) ++ (writeSlot (bitOf v 7) ++ []))))))) := by
  simp [byteSlots, List.range_succ, List.flatMap]

set_option maxRecDepth 100000 in
theorem shift_or_eq_add : ∀ TH, TH < 8 → ∀ TL, TL < 256 → TH <<< 8 ||| TL = 256 * TH + TL := by
  decide

theorem delayTotal_append (a b : List Action) :
    delayTotal (a ++ b) = delayTotal a + delayTotal b := by
  induction a with
  | nil => simp [delayTotal]
  | cons x a ih =>
    cases x with
    | delay us => simp [delayTotal, ih]; omega
    | driveLow => simp [delayTotal, ih]
    | release => simp [delayTotal, ih]
    | sample b => simp [delayTotal, ih]

theorem delayTotal_polls (lvl : Bool) : ∀ n, delayTotal (polls lvl n) = n := by
  intro n
  induction n with
  | zero => simp [polls, delayTotal]
  | succ n ih => simp only [polls, delayTotal, ih]; omega

theorem delayTotal_sample (b : Bool) : delayTotal [Action.sample b] = 0 := rfl

/-- Every run of `DS18B20_Check` keeps the line, advances the read counter and adds to
the trace only reads and 1 us delays, at most 439 of the latter. -/
theorem check_summary (s : Bus) :
    ∃ (p : List Action) (n : Nat),
      (∀ a, a ∈ p → a = Action.delay 1 ∨ ∃ b, a = Action.sample b) ∧
      delayTotal p ≤ 439 ∧ (DS18B20_Check s).2 = ⟨s.line, s.reads + n, s.trace ++ p⟩ := by
  rcases check_cases s with ⟨_, h⟩ | ⟨j, hj, _, _, ⟨_, h⟩ | ⟨k, hk, _, _, h⟩⟩
  · refine ⟨polls true 200 ++ [Action.sample (s.line (s.reads + 200))], 200 + 1, ?_, ?_, ?_⟩
    · intro a ha
      rcases List.mem_append.1 ha with h1 | h1
      · exact polls_mem _ _ _ h1
      · exact Or.inr ⟨_, by simpa using h1⟩
    · rw [delayTotal_append, delayTotal_polls, delayTotal_sample]
      omega
    · rw [h]
      simp only [afterPoll, List.append_assoc, Nat.add_assoc]
  · refine ⟨polls true j ++ [Action.sample (s.line (s.reads + j))] ++ polls false 240 ++
      [Action.sample (s.line (s.reads + j + 1 + 240))], j + 1 + 240 + 1, ?_, ?_, ?_⟩
    · intro a ha
      simp only [List.mem_append, List.mem_singleton] at ha
      rcases ha with ((h1 | h1) | h1) | h1
      · exact polls_mem _ _ _ h1
      · exact Or.inr ⟨_, h1⟩
      · exact polls_mem _ _ _ h1
      · exact Or.inr ⟨_, h1⟩
    · rw [delayTotal_append, delayTotal_append, delayTotal_append, delayTotal_polls,
        delayTotal_polls, delayTotal_sample, delayTotal_sample]
      omega
    · have e : s.reads + j + 1 + 240 + 1 = s.reads + (j + 1 + 240 + 1) := by omega
      rw [h]
      simp only [afterPoll, List.append_assoc, e]
  · refine ⟨polls true j ++ [Action.sample (s.line (s.reads + j))] ++ polls false k ++
      [Action.sample (s.line (s.reads + j + 1 + k))], j + 1 + k + 1, ?_, ?_, ?_⟩
    · intro a ha
      simp only [List.mem_append, List.mem_singleton] at ha
      rcases ha with ((h1 | h1) | h1) | h1
      · exact polls_mem _ _ _ h1
      · exact Or.inr ⟨_, h1⟩
      · exact polls_mem _ _ _ h1
      · exact Or.inr ⟨_, h1⟩
    · rw [delayTotal_append, delayTotal_append, delayTotal_append, delayTotal_polls,
        delayTotal_polls, delayTotal_sample, delayTotal_sample]
      omega
    · have e : s.reads + j + 1 + k + 1 = s.reads + (j + 1 + k + 1) := by omega
      rw [h]
      simp only [afterPoll, List.append_assoc, e]

theorem check_line (s : Bus) : (DS18B20_Check s).2.line = s.line := by
  obtain ⟨p, n, _, _, h⟩ := check_summary s
  rw [h]

theorem check_trace (s : Bus) :
    (DS18B20_Check s).2.trace = s.trace ++ emitted s (DS18B20_Check s).2 := by
  obtain ⟨p, n, _, _, h⟩ := check_summary s
  simp [emitted, h]

theorem check_poll_only (s : Bus) :
    ∀ a, a ∈ emitted s (DS18B20_Check s).2 → a = Action.delay 1 ∨ ∃ b, a = Action.sample b := by
  obtain ⟨p, n, hp, _, h⟩ := check_summary s
  simpa [emitted, h] using hp

theorem check_delay_le (s : Bus) : delayTotal (emitted s (DS18B20_Check s).2) ≤ 439 := by
  obtain ⟨p, n, _, hd, h⟩ := check_summary s
  simpa [emitted, h] using hd

theorem check_state (s : Bus) :
    (DS18B20_Check s).2
      = ⟨s.line, (DS18B20_Check s).2.reads, s.trace ++ emitted s (DS18B20_Check s).2⟩ := by
  obtain ⟨p, n, _, _, h⟩ := check_summary s
  rw [h]
  simp [emitted]

theorem start_eq (s : Bus) :
    DS18B20_Start s
      = ⟨s.line, (DS18B20_Check (DS18B20_Rst s)).2.reads,
          s.trace ++ resetPulse ++ emitted (DS18B20_Rst s) (DS18B20_Check (DS18B20_Rst s)).2
            ++ byteSlots 0xCC ++ byteSlots 0x44⟩ := by
  have hc := check_state (DS18B20_Rst s)
  have : DS18B20_Start s
      = DS18B20_Write_Byte 0x44 (DS18B20_Write_Byte 0xCC (DS18B20_Check (DS18B20_Rst s)).2) :=
    rfl
  rw [this, write_byte_eq _ (by decide), write_byte_eq _ (by decide)]
  generalize emitted (DS18B20_Rst s) (DS18B20_Check (DS18B20_Rst s)).2 = p at hc ⊢
  rw [hc]
  simp [rst_eq]

theorem get_temp_bytes_eq (s : Bus) :
    Get_Temp_bytes s
      = ((byteAt s.line (DS18B20_Check (DS18B20_Rst (DS18B20_Start s))).2.reads,
          byteAt s.line ((DS18B20_Check (DS18B20_Rst (DS18B20_Start s))).2.reads + 8)),
         ⟨s.line, (DS18B20_Check (DS18B20_Rst (DS18B20_Start s))).2.reads + 16,
          (DS18B20_Start s).trace ++ resetPulse
            ++ emitted (DS18B20_Rst (DS18B20_Start s))
                (DS18B20_Check (DS18B20_Rst (DS18B20_Start s))).2
            ++ byteSlots 0xCC ++ byteSlots 0xBE
            ++ (List.range 16).flatMap (fun k =>
                readSlot (s.line ((DS18B20_Check (DS18B20_Rst (DS18B20_Start s))).2.reads + k)))⟩)
    := by
  have hc := check_state (DS18B20_Rst (DS18B20_Start s))
  have hl : (DS18B20_Rst (DS18B20_Start s)).line = s.line := by
    rw [rst_eq, start_eq]
  have ht : (DS18B20_Rst (DS18B20_Start s)).trace = (DS18B20_Start s).trace ++ resetPulse := by
    rw [rst_eq]
  have : Get_Temp_bytes s
      = ((( DS18B20_Read_Byte (DS18B20_Write_Byte 0xbe (DS18B20_Write_Byte 0xcc
              (DS18B20_Check (DS18B20_Rst (DS18B20_Start s))).2))).1,
          (DS18B20_Read_Byte (DS18B20_Read_Byte (DS18B20_Write_Byte 0xbe
              (DS18B20_Write_Byte 0xcc
                (DS18B20_Check (DS18B20_Rst (DS18B20_Start s))).2))).2).1),
         (DS18B20_Read_Byte (DS18B20_Read_Byte (DS18B20_Write_Byte 0xbe
              (DS18B20_Write_Byte 0xcc
                (DS18B20_Check (DS18B20_Rst (DS18B20_Start s))).2))).2).2) := rfl
  rw [this, write_byte_eq _ (by decide), write_byte_eq _ (by decide)]
  generalize emitted (DS18B20_Rst (DS18B20_Start s))
    (DS18B20_Check (DS18B20_Rst (DS18B20_Start s))).2 = p at hc ⊢
  generalize (DS18B20_Check (DS18B20_Rst (DS18B20_Start s))).2.reads = m at hc ⊢
  rw [hc, hl, ht]
  simp only [read_byte_eq]
  simp [byteAt, List.range_succ, List.flatMap, Nat.add_assoc]

theorem start_trace (s : Bus) :
    (DS18B20_Start s).trace
      = s.trace ++ resetPulse ++ emitted (DS18B20_Rst s) (DS18B20_Check (DS18B20_Rst s)).2
          ++ byteSlots 0xCC ++ byteSlots 0x44 := by
  rw [start_eq]

theorem start_emitted (s : Bus) :
    emitted s (DS18B20_Start s)
      = resetPulse ++ emitted (DS18B20_Rst s) (DS18B20_Check (DS18B20_Rst s)).2
          ++ byteSlots 0xCC ++ byteSlots 0x44 := by
  rw [emitted, start_trace]
  simp

theorem init_emitted (s : Bus) :
    emitted s (DS18B20_Init s).2
      = Action.release :: resetPulse
          ++ emitted (DS18B20_Rst (SET_DS18B20 s)) (DS18B20_Check (DS18B20_Rst (SET_DS18B20 s))).2
    := by
  have h : DS18B20_Init s = DS18B20_Check (DS18B20_Rst (SET_DS18B20 s)) := rfl
  rw [h, emitted, check_trace, rst_eq]
  simp [SET_DS18B20]

theorem get_temp_emitted (s : Bus) :
    emitted s (DS18B20_Get_Temp s).2
      = resetPulse ++ emitted (DS18B20_Rst s) (DS18B20_Check (DS18B20_Rst s)).2
          ++ byteSlots 0xCC ++ byteSlots 0x44
          ++ resetPulse
          ++ emitted (DS18B20_Rst (DS18B20_Start s))
              (DS18B20_Check (DS18B20_Rst (DS18B20_Start s))).2
          ++ byteSlots 0xCC ++ byteSlots 0xBE
          ++ (List.range 16).flatMap (fun k =>
              readSlot (s.line ((DS18B20_Check (DS18B20_Rst (DS18B20_Start s))).2.reads + k)))
    := by
  have h : (DS18B20_Get_Temp s).2 = (Get_Temp_bytes s).2 := rfl
  have hst := start_trace s
  rw [h, get_temp_bytes_eq]
  generalize emitted (DS18B20_Rst (DS18B20_Start s))
    (DS18B20_Check (DS18B20_Rst (DS18B20_Start s))).2 = p2
  generalize (DS18B20_Check (DS18B20_Rst (DS18B20_Start s))).2.reads = m
  generalize emitted (DS18B20_Rst s) (DS18B20_Check (DS18B20_Rst s)).2 = p1 at hst ⊢
  rw [emitted]
  simp only
  rw [hst]
  simp only [List.append_assoc, List.drop_left]

theorem get_temp_value (s : Bus) :
    (DS18B20_Get_Temp s).1
      = Get_Temp_decode
          (byteAt s.line (DS18B20_Check (DS18B20_Rst (DS18B20_Start s))).2.reads)
          (byteAt s.line ((DS18B20_Check (DS18B20_Rst (DS18B20_Start s))).2.reads + 8)) := by
  have h : (DS18B20_Get_Temp s).1
      = Get_Temp_decode (Get_Temp_bytes s).1.1 (Get_Temp_bytes s).1.2 := rfl
  rw [h, get_temp_bytes_eq]

theorem delayTotal_byteSlots (v : Nat) : delayTotal (byteSlots v) = 496 := by
  simp only [byteSlots_unfold, delayTotal_writeSlot, delayTotal]

theorem delayTotal_readSlots (g : Nat → Bool) (l : List Nat) :
    delayTotal (l.flatMap (fun k => readSlot (g k))) = 64 * l.length := by
  induction l with
  | nil => simp [delayTotal]
  | cons a l ih =>
    simp only [List.flatMap_cons, delayTotal_append, ih, List.length_cons]
    simp only [readSlot, delayTotal]
    omega

theorem delayTotal_resetPulse : delayTotal resetPulse = 765 := rfl

theorem get_temp_delay (s : Bus) :
    delayTotal (emitted s (DS18B20_Get_Temp s).2)
      = 4538 + delayTotal (emitted (DS18B20_Rst s) (DS18B20_Check (DS18B20_Rst s)).2)
          + delayTotal (emitted (DS18B20_Rst (DS18B20_Start s))
              (DS18B20_Check (DS18B20_Rst (DS18B20_Start s))).2) := by
  rw [get_temp_emitted]
  generalize emitted (DS18B20_Rst (DS18B20_Start s))
    (DS18B20_Check (DS18B20_Rst (DS18B20_Start s))).2 = p2
  generalize (DS18B20_Check (DS18B20_Rst (DS18B20_Start s))).2.reads = m
  generalize emitted (DS18B20_Rst s) (DS18B20_Check (DS18B20_Rst s)).2 = p1
  simp only [delayTotal_append, delayTotal_byteSlots, delayTotal_readSlots, List.length_range,
    delayTotal_resetPulse]
  omega

theorem lineWalk_append :
    ∀ (a b : List Action) (held held1 : Bool),
      lineWalk held a = some held1 → lineWalk held (a ++ b) = lineWalk held1 b := by
  intro a
  induction a with
  | nil =>
    intro b held held1 h
    simp only [lineWalk, Option.some.injEq] at h
    simp [h]
  | cons x a ih =>
    intro b held held1 h
    cases x with
    | driveLow => simp only [lineWalk, List.cons_append] at h ⊢; exact ih b _ _ h
    | release => simp only [lineWalk, List.cons_append] at h ⊢; exact ih b _ _ h
    | delay us => simp only [lineWalk, List.cons_append] at h ⊢; exact ih b _ _ h
    | sample v =>
      cases held with
      | true => simp [lineWalk] at h
      | false =>
        simp only [lineWalk, List.cons_append, Bool.false_eq_true, if_false] at h ⊢
        exact ih b _ _ h

theorem lineWalk_resetPulse (held : Bool) : lineWalk held resetPulse = some false := by
  cases held <;> rfl

theorem lineWalk_writeSlot (held b : Bool) : lineWalk held (writeSlot b) = some false := by
  cases held <;> cases b <;> rfl

theorem lineWalk_readSlot (held b : Bool) : lineWalk held (readSlot b) = some false := by
  cases held <;> cases b <;> rfl

theorem lineWalk_byteSlots (held : Bool) (v : Nat) :
    lineWalk held (byteSlots v) = some false := by
  rw [byteSlots_unfold]
  simp only [lineWalk_append _ _ _ _ (lineWalk_writeSlot _ _), List.append_nil,
    lineWalk_writeSlot]

theorem lineWalk_readSlots (g : Nat → Bool) :
    ∀ l : List Nat, lineWalk false (l.flatMap (fun k => readSlot (g k))) = some false := by
  intro l
  induction l with
  | nil => rfl
  | cons a l ih =>
    rw [List.flatMap_cons, lineWalk_append _ _ _ _ (lineWalk_readSlot _ _), ih]

theorem lineWalk_polls :
    ∀ p : List Action, (∀ a, a ∈ p → a = Action.delay 1 ∨ ∃ b, a = Action.sample b) →
      lineWalk false p = some false := by
  intro p
  induction p with
  | nil => intro _; rfl
  | cons x p ih =>
    intro h
    have hx := h x (List.mem_cons_self _ _)
    have hp := ih (fun a ha => h a (List.mem_cons_of_mem _ ha))
    rcases hx with hx | ⟨b, hx⟩
    · subst hx; simpa [lineWalk] using hp
    · subst hx; simpa [lineWalk] using hp

theorem lowWidths_polls :
    ∀ (p r : List Action), (∀ a, a ∈ p → a = Action.delay 1 ∨ ∃ b, a = Action.sample b) →
      lowWidths (p ++ r) = lowWidths r := by
  intro p
  induction p with
  | nil => intro r _; rfl
  | cons x p ih =>
    intro r h
    have hx := h x (List.mem_cons_self _ _)
    have hp := ih r (fun a ha => h a (List.mem_cons_of_mem _ ha))
    rcases hx with hx | ⟨b, hx⟩
    · subst hx; simpa [lowWidths] using hp
    · subst hx; simpa [lowWidths] using hp

theorem lowWidths_resetPulse (r : List Action) :
    lowWidths (resetPulse ++ r) = 750 :: lowWidths r := by
  simp [resetPulse, lowWidths, lowWidthFrom]

theorem lowWidths_writeSlot (b : Bool) (r : List Action) :
    lowWidths (writeSlot b ++ r) = (if b then 2 else 60) :: lowWidths r := by
  cases b <;> simp [writeSlot, lowWidths, lowWidthFrom]

theorem lowWidths_readSlot (b : Bool) (r : List Action) :
    lowWidths (readSlot b ++ r) = 2 :: lowWidths r := by
  simp [readSlot, lowWidths, lowWidthFrom]

theorem lowWidths_byteSlots (v : Nat) (r : List Action) :
    lowWidths (byteSlots v ++ r)
      = (List.range 8).map (fun k => if bitOf v k then 2 else 60) ++ lowWidths r := by
  rw [byteSlots_unfold]
  simp only [List.append_assoc, lowWidths_writeSlot, List.nil_append]
  simp [List.range_succ]

theorem lowWidths_readSlots (g : Nat → Bool) :
    ∀ l : List Nat, lowWidths (l.flatMap (fun k => readSlot (g k))) = l.map (fun _ => 2) := by
  intro l
  induction l with
  | nil => rfl
  | cons a l ih => rw [List.flatMap_cons, lowWidths_readSlot, ih]; rfl

/-- Either polling loop of `DS18B20_Check`, run from `retry = 0`: it makes `n ≤ bound`
rounds and leaves on the read after them; the number of rounds is the value of `retry`
it returns. -/
theorem pollWhile_summary (lvl : Bool) (bound : Nat) (hb : bound < 256) (extra : Nat)
    (s : Bus) :
    ∃ n, n ≤ bound ∧ (n = bound ∨ s.line (s.reads + n) ≠ lvl) ∧
      pollWhile lvl bound (bound + 1 + extra) 0 s = (n, afterPoll lvl n s) := by
  obtain ⟨n, hn, hall, hex⟩ := exists_run lvl bound (fun i => s.line (s.reads + i))
  refine ⟨n, hn, hex, ?_⟩
  have hex2 : 0 + n = bound ∨ s.line (s.reads + n) ≠ lvl := by
    rcases hex with h | h
    · left; omega
    · right; exact h
  rw [pollWhile_run lvl bound hb n (bound + 1 + extra) 0 s (by omega) (by omega) hall hex2]
  simp [afterPoll]

theorem emitted_afterPoll (lvl : Bool) (n : Nat) (t : Bus) :
    emitted t (afterPoll lvl n t) = polls lvl n ++ [Action.sample (t.line (t.reads + n))] := by
  simp [emitted, afterPoll]

theorem rst_line (s : Bus) : (DS18B20_Rst s).line = s.line := by
  rw [rst_eq]

theorem start_line (s : Bus) : (DS18B20_Start s).line = s.line := by
  rw [start_eq]

theorem check_all_high (t : Bus) (h : ∀ k, t.line k = true) :
    DS18B20_Check t = (1, afterPoll true 200 t) :=
  check_absent_A t (fun i _ => h (t.reads + i))

theorem check_all_low (t : Bus) (h : ∀ k, t.line k = false) :
    DS18B20_Check t = (1, afterPoll false 240 (afterPoll true 0 t)) :=
  check_absent_B t 0 (by decide) (fun i hi => absurd hi (Nat.not_lt_zero i)) (h _)
    (fun k _ => h _)

theorem write_byte_emitted (v : Nat) (s : Bus) :
    emitted s (DS18B20_Write_Byte v s) = byteSlots (v % 256) := by
  simp [emitted, DS18B20_Write_Byte, writeByteLoop_eq, slotsFrom_eight]

theorem rawReading_low (TL TH : Nat) (hTL : TL < 256) (hTH : TH ≤ 7) :
    rawReading TL TH = 256 * (TH : Int) + TL := by
  unfold rawReading toShort; omega

theorem rawReading_high (TL TH : Nat) (hTL : TL < 256) (hlo : 128 ≤ TH) (hhi : TH < 256) :
    rawReading TL TH = 256 * (TH : Int) + TL - 65536 := by
  unfold rawReading toShort; omega

theorem decode_monotone (TL1 TH1 TL2 TH2 : Nat) (h1 : TL1 < 256) (h2 : TL2 < 256)
    (hs1 : TH1 ≤ 7 ∨ (0xF8 ≤ TH1 ∧ TH1 < 256)) (hs2 : TH2 ≤ 7 ∨ (0xF8 ≤ TH2 ∧ TH2 < 256))
    (hle : rawReading TL1 TH1 ≤ rawReading TL2 TH2) :
    Get_Temp_decode TL1 TH1 ≤ Get_Temp_decode TL2 TH2 := by
  rcases hs1 with p1 | ⟨l1, u1⟩ <;> rcases hs2 with p2 | ⟨l2, u2⟩
  · rw [decode_positive _ _ h1 p1, decode_positive _ _ h2 p2]
    rw [rawReading_low _ _ h1 p1, rawReading_low _ _ h2 p2] at hle
    omega
  · rw [rawReading_low _ _ h1 p1, rawReading_high _ _ h2 (by omega) u2] at hle
    omega
  · rw [decode_negative _ _ h1 (by omega) u1, decode_positive _ _ h2 p2]
    omega
  · rw [decode_negative _ _ h1 (by omega) u1, decode_negative _ _ h2 (by omega) u2]
    rw [rawReading_high _ _ h1 (by omega) u1, rawReading_high _ _ h2 (by omega) u2] at hle
    omega

theorem lineWalk_readSlots_cons (held : Bool) (g : Nat → Bool) (a : Nat) (l : List Nat) :
    lineWalk held ((a :: l).flatMap (fun k => readSlot (g k))) = some false := by
  rw [List.flatMap_cons, lineWalk_append _ _ _ _ (lineWalk_readSlot _ _), lineWalk_readSlots]

theorem range_eight : List.range 8 = 0 :: [1, 2, 3, 4, 5, 6, 7] := by decide

/-- A walk that succeeds ends in the state the last write to the pin left: the state
held before when there was no write, held low after a drive-low, released after a
release. -/
theorem lineWalk_last_write :
    ∀ (l : List Action) (held r : Bool), lineWalk held l = some r →
      (pinWrites l = [] ∧ r = held) ∨
      (∃ pre, pinWrites l = pre ++ [Action.driveLow] ∧ r = true) ∨
      (∃ pre, pinWrites l = pre ++ [Action.release] ∧ r = false) := by
  intro l
  induction l with
  | nil =>
    intro held r h
    simp only [lineWalk, Option.some.injEq] at h
    exact Or.inl ⟨rfl, h.symm⟩
  | cons x l ih =>
    intro held r h
    cases x with
    | driveLow =>
      simp only [lineWalk] at h
      rcases ih true r h with ⟨h1, h2⟩ | ⟨pre, h1, h2⟩ | ⟨pre, h1, h2⟩
      · exact Or.inr (Or.inl ⟨[], by simp [pinWrites, h1], h2⟩)
      · exact Or.inr (Or.inl ⟨Action.driveLow :: pre, by simp [pinWrites, h1], h2⟩)
      · exact Or.inr (Or.inr ⟨Action.driveLow :: pre, by simp [pinWrites, h1], h2⟩)
    | release =>
      simp only [lineWalk] at h
      rcases ih false r h with ⟨h1, h2⟩ | ⟨pre, h1, h2⟩ | ⟨pre, h1, h2⟩
      · exact Or.inr (Or.inr ⟨[], by simp [pinWrites, h1], h2⟩)
      · exact Or.inr (Or.inl ⟨Action.release :: pre, by simp [pinWrites, h1], h2⟩)
      · exact Or.inr (Or.inr ⟨Action.release :: pre, by simp [pinWrites, h1], h2⟩)
    | delay us =>
      simp only [lineWalk] at h
      simpa [pinWrites] using ih held r h
    | sample b =>
      cases held with
      | true => simp [lineWalk] at h
      | false =>
        simp only [lineWalk, Bool.false_eq_true, if_false] at h
        simpa [pinWrites] using ih false r h

theorem last_write_release (l : List Action) (h : lineWalk true l = some false) :
    (pinWrites l).getLast? = some Action.release := by
  rcases lineWalk_last_write l true false h with ⟨_, h2⟩ | ⟨_, _, h2⟩ | ⟨pre, h1, _⟩
  · exact absurd h2 (by decide)
  · exact absurd h2 (by decide)
  · rw [h1]; simp

theorem lineActions_append (a b : List Action) :
    lineActions (a ++ b) = lineActions a ++ lineActions b := by
  induction a with
  | nil => rfl
  | cons x a ih => cases x <;> simp [lineActions, ih]

theorem lineActions_resetPulse :
    lineActions resetPulse = [Action.driveLow, Action.release] := rfl

theorem lineActions_writeSlot (b : Bool) :
    lineActions (writeSlot b) = [Action.driveLow, Action.release] := by
  cases b <;> rfl

theorem lineActions_readSlot (b : Bool) :
    lineActions (readSlot b) = [Action.driveLow, Action.release, Action.sample b] := rfl

theorem lineActions_byteSlots (v : Nat) : lineActions (byteSlots v) = pulsePairs 8 := by
  rw [byteSlots_unfold]
  simp only [lineActions_append, lineActions_writeSlot]
  rfl

theorem lineActions_readSlots (g : Nat → Bool) :
    ∀ l : List Nat, lineActions (l.flatMap (fun k => readSlot (g k)))
      = l.flatMap (fun k => [Action.driveLow, Action.release, Action.sample (g k)]) := by
  intro l
  induction l with
  | nil => rfl
  | cons a l ih =>
    rw [List.flatMap_cons, List.flatMap_cons, lineActions_append, lineActions_readSlot, ih]

theorem lineActions_polls :
    ∀ p : List Action, (∀ a, a ∈ p → a = Action.delay 1 ∨ ∃ b, a = Action.sample b) →
      lineActions p = sampleActions p := by
  intro p
  induction p with
  | nil => intro _; rfl
  | cons x p ih =>
    intro h
    have hx := h x (List.mem_cons_self _ _)
    have hp := ih (fun a ha => h a (List.mem_cons_of_mem _ ha))
    rcases hx with hx | ⟨b, hx⟩
    · subst hx; simpa [lineActions, sampleActions, sampledLevels] using hp
    · subst hx; simpa [lineActions, sampleActions, sampledLevels] using hp

theorem sampledLevels_append (a b : List Action) :
    sampledLevels (a ++ b) = sampledLevels a ++ sampledLevels b := by
  induction a with
  | nil => rfl
  | cons x a ih => cases x <;> simp [sampledLevels, ih]

/-- The actions of a presence check end with a read of the line. -/
theorem check_ends_with_sample (t : Bus) :
    ∃ (q : List Action) (b : Bool), emitted t (DS18B20_Check t).2 = q ++ [Action.sample b] := by
  rcases check_cases t with ⟨_, h⟩ | ⟨j, _, _, _, ⟨_, h⟩ | ⟨k, _, _, _, h⟩⟩
  · exact ⟨_, _, by rw [h]; exact emitted_afterPoll true 200 t⟩
  · refine ⟨polls true j ++ [Action.sample (t.line (t.reads + j))] ++ polls false 240,
      t.line (t.reads + j + 1 + 240), ?_⟩
    rw [h]
    simp only [emitted, afterPoll, List.append_assoc, List.drop_left]
  · refine ⟨polls true j ++ [Action.sample (t.line (t.reads + j))] ++ polls false k,
      t.line (t.reads + j + 1 + k), ?_⟩
    rw [h]
    simp only [emitted, afterPoll, List.append_assoc, List.drop_left]

theorem sampleActions_check_last (t : Bus) :
    ∃ b, (sampleActions (emitted t (DS18B20_Check t).2)).getLast? = some (Action.sample b) := by
  obtain ⟨q, b, h⟩ := check_ends_with_sample t
  refine ⟨b, ?_⟩
  rw [h]
  simp [sampleActions, sampledLevels_append, sampledLevels]

/-- In the actions each driving operation adds to the trace no read of the line is taken
while the line is held low, and the line is not held low at the end, whatever the state
of the pin before. -/
theorem discipline_walk (s : Bus) (held : Bool) (v : Nat) :
    lineWalk held (emitted s (DS18B20_Rst s)) = some false ∧
    lineWalk held (emitted s (DS18B20_Read_Bit s).2) = some false ∧
    lineWalk held (emitted s (DS18B20_Read_Byte s).2) = some false ∧
    lineWalk held (emitted s (DS18B20_Write_Byte v s)) = some false ∧
    lineWalk held (emitted s (DS18B20_Init s).2) = some false ∧
    lineWalk held (emitted s (DS18B20_Start s)) = some false ∧
    lineWalk held (emitted s (DS18B20_Get_Temp s).2) = some false := by
  refine ⟨?_, ?_, ?_, ?_, ?_, ?_, ?_⟩
  · have hr : emitted s (DS18B20_Rst s) = resetPulse := by simp [emitted, rst_eq]
    rw [hr, lineWalk_resetPulse]
  · have hr : emitted s (DS18B20_Read_Bit s).2 = readSlot (s.line s.reads) := by
      simp [emitted, read_bit_eq]
    rw [hr, lineWalk_readSlot]
  · have hr : emitted s (DS18B20_Read_Byte s).2
        = (List.range 8).flatMap (fun k => readSlot (s.line (s.reads + k))) := by
      simp [emitted, read_byte_eq]
    rw [hr, range_eight, lineWalk_readSlots_cons]
  · rw [write_byte_emitted, lineWalk_byteSlots]
  · rw [init_emitted]
    have hp := check_poll_only (DS18B20_Rst (SET_DS18B20 s))
    generalize emitted (DS18B20_Rst (SET_DS18B20 s))
      (DS18B20_Check (DS18B20_Rst (SET_DS18B20 s))).2 = p at hp ⊢
    show lineWalk false (resetPulse ++ p) = some false
    rw [lineWalk_append _ _ _ _ (lineWalk_resetPulse _), lineWalk_polls p hp]
  · rw [start_emitted]
    have hp := check_poll_only (DS18B20_Rst s)
    generalize emitted (DS18B20_Rst s) (DS18B20_Check (DS18B20_Rst s)).2 = p at hp ⊢
    simp only [List.append_assoc]
    rw [lineWalk_append _ _ _ _ (lineWalk_resetPulse _),
      lineWalk_append _ _ _ _ (lineWalk_polls p hp),
      lineWalk_append _ _ _ _ (lineWalk_byteSlots _ _), lineWalk_byteSlots]
  · rw [get_temp_emitted]
    have hp := check_poll_only (DS18B20_Rst s)
    have hq := check_poll_only (DS18B20_Rst (DS18B20_Start s))
    generalize emitted (DS18B20_Rst (DS18B20_Start s))
      (DS18B20_Check (DS18B20_Rst (DS18B20_Start s))).2 = q at hq ⊢
    generalize (DS18B20_Check (DS18B20_Rst (DS18B20_Start s))).2.reads = m
    generalize emitted (DS18B20_Rst s) (DS18B20_Check (DS18B20_Rst s)).2 = p at hp ⊢
    simp only [List.append_assoc]
    rw [lineWalk_append _ _ _ _ (lineWalk_resetPulse _),
      lineWalk_append _ _ _ _ (lineWalk_polls p hp),
      lineWalk_append _ _ _ _ (lineWalk_byteSlots _ _),
      lineWalk_append _ _ _ _ (lineWalk_byteSlots _ _),
      lineWalk_append _ _ _ _ (lineWalk_resetPulse _),
      lineWalk_append _ _ _ _ (lineWalk_polls q hq),
      lineWalk_append _ _ _ _ (lineWalk_byteSlots _ _),
      lineWalk_append _ _ _ _ (lineWalk_byteSlots _ _), lineWalk_readSlots]

/-- The line actions of each driving operation, in order. -/
theorem discipline_actions (s : Bus) (v : Nat) :
    lineActions (emitted s (DS18B20_Rst s)) = [Action.driveLow, Action.release] ∧
    lineActions (emitted s (DS18B20_Read_Bit s).2)
      = [Action.driveLow, Action.release, Action.sample (s.line s.reads)] ∧
    lineActions (emitted s (DS18B20_Read_Byte s).2)
      = (List.range 8).flatMap (fun k =>
          [Action.driveLow, Action.release, Action.sample (s.line (s.reads + k))]) ∧
    lineActions (emitted s (DS18B20_Write_Byte v s)) = pulsePairs 8 ∧
    lineActions (emitted s (DS18B20_Init s).2)
      = [Action.release, Action.driveLow, Action.release]
          ++ sampleActions (emitted (DS18B20_Rst (SET_DS18B20 s))
              (DS18B20_Check (DS18B20_Rst (SET_DS18B20 s))).2) ∧
    lineActions (emitted s (DS18B20_Start s))
      = [Action.driveLow, Action.release]
          ++ sampleActions (emitted (DS18B20_Rst s) (DS18B20_Check (DS18B20_Rst s)).2)
          ++ pulsePairs 16 ∧
    lineActions (emitted s (DS18B20_Get_Temp s).2)
      = [Action.driveLow, Action.release]
          ++ sampleActions (emitted (DS18B20_Rst s) (DS18B20_Check (DS18B20_Rst s)).2)
          ++ pulsePairs 16
          ++ [Action.driveLow, Action.release]
          ++ sampleActions (emitted (DS18B20_Rst (DS18B20_Start s))
              (DS18B20_Check (DS18B20_Rst (DS18B20_Start s))).2)
          ++ pulsePairs 16
          ++ (List.range 16).flatMap (fun k =>
              [Action.driveLow, Action.release,
               Action.sample
                 (s.line ((DS18B20_Check (DS18B20_Rst (DS18B20_Start s))).2.reads + k))]) := by
  refine ⟨?_, ?_, ?_, ?_, ?_, ?_, ?_⟩
  · have hr : emitted s (DS18B20_Rst s) = resetPulse := by simp [emitted, rst_eq]
    rw [hr]; rfl
  · have hr : emitted s (DS18B20_Read_Bit s).2 = readSlot (s.line s.reads) := by
      simp [emitted, read_bit_eq]
    rw [hr]; rfl
  · have hr : emitted s (DS18B20_Read_Byte s).2
        = (List.range 8).flatMap (fun k => readSlot (s.line (s.reads + k))) := by
      simp [emitted, read_byte_eq]
    rw [hr, lineActions_readSlots]
  · rw [write_byte_emitted, lineActions_byteSlots]
  · rw [init_emitted]
    have hp := check_poll_only (DS18B20_Rst (SET_DS18B20 s))
    generalize emitted (DS18B20_Rst (SET_DS18B20 s))
      (DS18B20_Check (DS18B20_Rst (SET_DS18B20 s))).2 = p at hp ⊢
    show Action.release :: lineActions (resetPulse ++ p) = _
    rw [lineActions_append, lineActions_resetPulse, lineActions_polls p hp]
    rfl
  · rw [start_emitted]
    have hp := check_poll_only (DS18B20_Rst s)
    generalize emitted (DS18B20_Rst s) (DS18B20_Check (DS18B20_Rst s)).2 = p at hp ⊢
    simp only [lineActions_append, lineActions_resetPulse, lineActions_polls p hp,
      lineActions_byteSlots, List.append_assoc]
    rfl
  · rw [get_temp_emitted]
    have hp := check_poll_only (DS18B20_Rst s)
    have hq := check_poll_only (DS18B20_Rst (DS18B20_Start s))
    generalize emitted (DS18B20_Rst (DS18B20_Start s))
      (DS18B20_Check (DS18B20_Rst (DS18B20_Start s))).2 = q at hq ⊢
    generalize (DS18B20_Check (DS18B20_Rst (DS18B20_Start s))).2.reads = m
    generalize emitted (DS18B20_Rst s) (DS18B20_Check (DS18B20_Rst s)).2 = p at hp ⊢
    simp only [lineActions_append, lineActions_resetPulse, lineActions_polls p hp,
      lineActions_polls q hq, lineActions_byteSlots, lineActions_readSlots, List.append_assoc]
    rfl

/-- The last write to the pin and the last line action of each driving operation. -/
theorem discipline_last (s : Bus) (v : Nat) :
    ((pinWrites (emitted s (DS18B20_Rst s))).getLast? = some Action.release ∧
     (pinWrites (emitted s (DS18B20_Read_Bit s).2)).getLast? = some Action.release ∧
     (pinWrites (emitted s (DS18B20_Read_Byte s).2)).getLast? = some Action.release ∧
     (pinWrites (emitted s (DS18B20_Write_Byte v s))).getLast? = some Action.release ∧
     (pinWrites (emitted s (DS18B20_Init s).2)).getLast? = some Action.release ∧
     (pinWrites (emitted s (DS18B20_Start s))).getLast? = some Action.release ∧
     (pinWrites (emitted s (DS18B20_Get_Temp s).2)).getLast? = some Action.release) ∧
    ((lineActions (emitted s (DS18B20_Rst s))).getLast? = some Action.release ∧
     (lineActions (emitted s (DS18B20_Write_Byte v s))).getLast? = some Action.release ∧
     (lineActions (emitted s (DS18B20_Start s))).getLast? = some Action.release ∧
     (lineActions (emitted s (DS18B20_Read_Bit s).2)).getLast?
       = some (Action.sample (s.line s.reads)) ∧
     (lineActions (emitted s (DS18B20_Read_Byte s).2)).getLast?
       = some (Action.sample (s.line (s.reads + 7))) ∧
     (∃ b, (lineActions (emitted s (DS18B20_Init s).2)).getLast? = some (Action.sample b)) ∧
     (lineActions (emitted s (DS18B20_Get_Temp s).2)).getLast?
       = some (Action.sample
           (s.line ((DS18B20_Check (DS18B20_Rst (DS18B20_Start s))).2.reads + 15)))) := by
  obtain ⟨w1, w2, w3, w4, w5, w6, w7⟩ := discipline_walk s true v
  obtain ⟨a1, a2, a3, a4, a5, a6, a7⟩ := discipline_actions s v
  refine ⟨⟨last_write_release _ w1, last_write_release _ w2, last_write_release _ w3,
    last_write_release _ w4, last_write_release _ w5, last_write_release _ w6,
    last_write_release _ w7⟩, ?_, ?_, ?_, ?_, ?_, ?_, ?_⟩
  · rw [a1]; rfl
  · rw [a4]; rfl
  · rw [a6, List.getLast?_append]
    rfl
  · rw [a2]; rfl
  · rw [a3, List.range_succ, List.flatMap_append, List.getLast?_append]
    rfl
  · obtain ⟨b, hb⟩ := sampleActions_check_last (DS18B20_Rst (SET_DS18B20 s))
    exact ⟨b, by rw [a5, List.getLast?_append, hb]; rfl⟩
  · rw [a7, List.range_succ, List.flatMap_append, List.getLast?_append]
    rfl

/-! ## The claims -/

/-- C1. Round trip: for every 8-bit `v` and every bus `s`, when the loopback line records
the write slots of `DS18B20_Write_Byte v` (2 us low pulse = 1, 60 us low pulse = 0) and
replays the recorded bits one per read slot, the `DS18B20_Read_Byte` that follows
returns `v`. -/
theorem C1_write_read_round_trip (v : Nat) (hv : v < 256) (s : Bus) :
    (DS18B20_Read_Byte (loopback s (DS18B20_Write_Byte v s))).1 = v := by
  rw [write_byte_eq v hv s, read_byte_eq]
  simp only [loopback, emitted, List.drop_left, byteSlots, recordSlots_slots, replay]
  simp [List.range_succ, bitVal_bitOf]
  omega

/-- Witness of C1 at `v = 0xA5` on a line that idles high. -/
theorem C1_write_read_round_trip_witness :
    0xA5 < 256 ∧ (DS18B20_Read_Byte (loopback stuckHigh (DS18B20_Write_Byte 0xA5 stuckHigh))).1
      = 0xA5 :=
  ⟨by decide, C1_write_read_round_trip 0xA5 (by decide) stuckHigh⟩

/-- C2. Positive decode: for scratchpad bytes `TL`, `TH` with `TH ≤ 7` the decode step of
`DS18B20_Get_Temp` returns `((TH << 8) | TL) * 5 / 8` rounded down, where
`(TH << 8) | TL = 256 * TH + TL`; the result is not negative; bytes `0x90`, `0x01`
(raw 400) give 250; and `DS18B20_Get_Temp` returns the decode of the two bytes it read. -/
theorem C2_positive_decode (TL TH : Nat) (hTL : TL < 256) (hTH : TH ≤ 7) :
    Get_Temp_decode TL TH = (((TH <<< 8 ||| TL) * 5 / 8 : Nat) : Int) ∧
    TH <<< 8 ||| TL = 256 * TH + TL ∧
    0 ≤ Get_Temp_decode TL TH ∧
    Get_Temp_decode 0x90 0x01 = 250 ∧
    ∀ s : Bus, (DS18B20_Get_Temp s).1
      = Get_Temp_decode (Get_Temp_bytes s).1.1 (Get_Temp_bytes s).1.2 := by
  have hor := shift_or_eq_add TH (by omega) TL hTL
  have hdec := decode_positive TL TH hTL hTH
  refine ⟨by rw [hor]; exact hdec, hor, ?_, by decide, fun _ => rfl⟩
  rw [hdec]
  exact Int.ofNat_nonneg _

/-- Witness of C2 at the bytes `0x90`, `0x01`. -/
theorem C2_positive_decode_witness :
    0x90 < 256 ∧ 0x01 ≤ 7 ∧
      Get_Temp_decode 0x90 0x01 = (((0x01 <<< 8 ||| 0x90) * 5 / 8 : Nat) : Int) :=
  ⟨by decide, by decide, (C2_positive_decode 0x90 0x01 (by decide) (by decide)).1⟩

/-- C3, as stated, fails: for the bytes `TL = 0xFF`, `TH = 0x08` (so `TH > 7`) the inverted
bytes give `256 * 247 + 0 = 63232`, which does not fit the 16-bit `short` it is held in;
the decode step returns `+1440`, which is positive and is not
`-(63232 * 5 / 8) = -39520`. -/
theorem C3_negative_decode_counterexample :
    0x08 > 7 ∧ Get_Temp_decode 0xFF 0x08 = 1440 ∧ ¬ (Get_Temp_decode 0xFF 0x08 ≤ 0) ∧
      Get_Temp_decode 0xFF 0x08
        ≠ -(((256 * (255 - 0x08) + (255 - 0xFF)) * 5 / 8 : Nat) : Int) := by
  decide

/-- C3, amended. Negative decode: for scratchpad bytes `TL`, `TH` with `TH ≥ 128` (the sign
bit set) the decode step of `DS18B20_Get_Temp` returns
`-((256 * (255 - TH) + (255 - TL)) * 5 / 8)` with the quotient rounded down, which is
never positive; for `TH = TL = 0xFF` it returns 0. -/
theorem C3_negative_decode (TL TH : Nat) (hTL : TL < 256) (hlo : 128 ≤ TH) (hhi : TH < 256) :
    Get_Temp_decode TL TH = -(((256 * (255 - TH) + (255 - TL)) * 5 / 8 : Nat) : Int) ∧
    Get_Temp_decode TL TH ≤ 0 ∧
    Get_Temp_decode 0xFF 0xFF = 0 := by
  have hdec := decode_negative TL TH hTL hlo hhi
  refine ⟨hdec, ?_, by decide⟩
  rw [hdec]
  exact Int.neg_nonpos_of_nonneg (Int.ofNat_nonneg _)

/-- Witness of C3 (amended) at the bytes `0x6F`, `0xFE` (raw -401). -/
theorem C3_negative_decode_witness :
    0x6F < 256 ∧ 128 ≤ 0xFE ∧ 0xFE < 256 ∧
      Get_Temp_decode 0x6F 0xFE
        = -(((256 * (255 - 0xFE) + (255 - 0x6F)) * 5 / 8 : Nat) : Int) :=
  ⟨by decide, by decide, by decide,
    (C3_negative_decode 0x6F 0xFE (by decide) (by decide) (by decide)).1⟩

/-- C4, at its failing input: the scratchpad bytes `0xF8`, `0xFF` hold the raw value -8
(-0.5 degrees, inside the rated range), for which the temperature in tenths of a degree
is -5, but the decode step of `DS18B20_Get_Temp` returns -4. -/
theorem C4_tenths_failing_input :
    rawReading 0xF8 0xFF = -8 ∧ -880 ≤ rawReading 0xF8 0xFF ∧ rawReading 0xF8 0xFF ≤ 2000 ∧
      specTenths (rawReading 0xF8 0xFF) = -5 ∧ Get_Temp_decode 0xF8 0xFF = -4 := by
  decide

/-- C5. Presence timeouts: `DS18B20_Check` returns 1 when the line is read high at each of
its first 200 reads, and also when it is read low for the first time at one of the first
200 reads and is then read low at each of the 240 reads that follow. -/
theorem C5_check_timeouts (s : Bus)
    (h : (∀ i, i < 200 → s.line (s.reads + i) = true) ∨
      (∃ j, j < 200 ∧ (∀ i, i < j → s.line (s.reads + i) = true) ∧
        s.line (s.reads + j) = false ∧
        ∀ k, k < 240 → s.line (s.reads + j + 1 + k) = false)) :
    (DS18B20_Check s).1 = 1 := by
  rcases h with hA | ⟨j, hj, hhigh, hlow, hB⟩
  · rw [check_absent_A s hA]
  · rw [check_absent_B s j hj hhigh hlow hB]

/-- Witness of C5: a line stuck high (first timeout) and a line stuck low (second
timeout). -/
theorem C5_check_timeouts_witness :
    (∀ i, i < 200 → stuckHigh.line (stuckHigh.reads + i) = true) ∧
    (DS18B20_Check stuckHigh).1 = 1 ∧
    (∀ k, k < 240 → stuckLow.line (stuckLow.reads + 0 + 1 + k) = false) ∧
    (DS18B20_Check stuckLow).1 = 1 :=
  ⟨fun _ _ => rfl,
   C5_check_timeouts stuckHigh (Or.inl (fun _ _ => rfl)),
   fun _ _ => rfl,
   C5_check_timeouts stuckLow
     (Or.inr ⟨0, by decide, fun i hi => absurd hi (Nat.not_lt_zero i), rfl, fun _ _ => rfl⟩)⟩

/-- C6, as stated, fails: on a line that is low for its first 241 reads and high from
then on, the first polling loop of `DS18B20_Check` takes a low sample, the second
polling loop takes a high sample (its 241st, taken when `retry` has already reached
240), and `DS18B20_Check` still returns 1. -/
theorem C6_check_present_counterexample :
    Action.sample false ∈ emitted lateHigh (pollWhile true 200 201 0 lateHigh).2 ∧
    Action.sample true ∈ emitted (pollWhile true 200 201 0 lateHigh).2
      (pollWhile false 240 241 0 (pollWhile true 200 201 0 lateHigh).2).2 ∧
    (DS18B20_Check lateHigh).1 = 1 := by
  have hlow : ∀ k, k < 240 → lateHigh.line (lateHigh.reads + 0 + 1 + k) = false := by
    intro k hk
    simp only [lateHigh, decide_eq_false_iff_not]
    omega
  have h1 := check_first_loop lateHigh 0 (by decide)
    (fun i hi => absurd hi (Nat.not_lt_zero i)) rfl
  have h2 := pollWhile_run false 240 (by decide) 240 241 0 (afterPoll true 0 lateHigh)
    (by decide) (by decide) (by simpa [afterPoll] using hlow) (Or.inl rfl)
  have h3 := check_absent_B lateHigh 0 (by decide)
    (fun i hi => absurd hi (Nat.not_lt_zero i)) rfl hlow
  refine ⟨?_, ?_, by rw [h3]⟩
  · rw [h1]
    simp [emitted, afterPoll, lateHigh, polls]
  · rw [h1, h2]
    simp [emitted, afterPoll, lateHigh]

/-- C6, amended. Presence success: `DS18B20_Check` returns only 0 or 1, and it returns 0
exactly when the line is read low at one of the first 200 reads of the first polling
loop and is read high at one of the first 240 reads of the second polling loop;
otherwise (no low among the first 200 reads, or no high among the 240 reads after the
first low) it returns 1. -/
theorem C6_check_present (s : Bus) :
    ((DS18B20_Check s).1 = 0 ∨ (DS18B20_Check s).1 = 1) ∧
    ((DS18B20_Check s).1 = 0 ↔ presencePulse s) ∧
    ((DS18B20_Check s).1 = 1 ↔ ¬ presencePulse s) := by
  have h01 := check_zero_or_one s
  have hiff := check_zero_iff s
  refine ⟨h01, hiff, ?_⟩
  constructor
  · intro h1 hp
    rw [hiff.2 hp] at h1
    exact absurd h1 (by decide)
  · intro hnp
    rcases h01 with h | h
    · exact absurd (hiff.1 h) hnp
    · exact h

/-- Witness of C6 (amended): on a line that is high for 3 reads, low for 2 reads and
high again, the presence pulse is seen and `DS18B20_Check` returns 0. -/
theorem C6_check_present_witness :
    presencePulse pulseLine ∧ (DS18B20_Check pulseLine).1 = 0 :=
  have hp : presencePulse pulseLine :=
    ⟨3, by decide, fun i hi => by simp only [pulseLine]; simp; omega, by decide, 1, by decide,
      by decide⟩
  ⟨hp, (C6_check_present pulseLine).2.1.2 hp⟩

/-- C7. `DS18B20_Init` releases the line, performs the reset pulse (drive low, 750 us,
release, 15 us), and then runs the presence check, whose result it returns: 0 or 1, and 0
exactly when the presence pulse was seen. -/
theorem C7_init_presence (s : Bus) :
    DS18B20_Init s
      = DS18B20_Check ⟨s.line, s.reads, s.trace ++ Action.release :: resetPulse⟩ ∧
    resetPulse = [Action.driveLow, Action.delay 750, Action.release, Action.delay 15] ∧
    ((DS18B20_Init s).1 = 0 ∨ (DS18B20_Init s).1 = 1) ∧
    ((DS18B20_Init s).1 = 0 ↔ presencePulse s) := by
  have h : DS18B20_Init s
      = DS18B20_Check ⟨s.line, s.reads, s.trace ++ Action.release :: resetPulse⟩ := by
    simp [DS18B20_Init, rst_eq, SET_DS18B20]
  refine ⟨h, rfl, ?_, ?_⟩
  · rw [h]; exact check_zero_or_one _
  · rw [h]; exact check_zero_iff _

/-- C8. LSB-first byte assembly: `DS18B20_Read_Byte` is exactly 8 runs of
`DS18B20_Read_Bit`, i.e. 8 read slots whose samples are the next 8 levels of the line, and
it returns the sum of `b_k * 2^k` over the levels `b_0 .. b_7` in the order read; the
wire sequence 1,0,0,0,0,0,0,0 yields `0x01`. -/
theorem C8_read_byte_lsb_first (s : Bus) :
    (DS18B20_Read_Byte s).1 = ∑ k in Finset.range 8, bitVal (s.line (s.reads + k)) * 2 ^ k ∧
    (DS18B20_Read_Byte s).2 = (fun t => (DS18B20_Read_Bit t).2)^[8] s ∧
    emitted s (DS18B20_Read_Byte s).2
      = (List.range 8).flatMap (fun k => readSlot (s.line (s.reads + k))) ∧
    sampledLevels (emitted s (DS18B20_Read_Byte s).2)
      = (List.range 8).map (fun k => s.line (s.reads + k)) ∧
    (DS18B20_Read_Byte ⟨replay [true, false, false, false, false, false, false, false], 0, []⟩).1
      = 0x01 := by
  refine ⟨?_, ?_, ?_, ?_, ?_⟩
  · rw [read_byte_eq]
    simp only [Finset.sum_range_succ, Finset.sum_range_zero, Nat.add_zero]
    omega
  · simp [DS18B20_Read_Byte, readByteLoop]
  · rw [read_byte_eq]
    simp [emitted]
  · rw [read_byte_eq]
    simp [emitted, List.range_succ, readSlot, sampledLevels]
  · rw [read_byte_eq]
    simp [replay, bitVal]

/-- C9. Write encoding: for every 8-bit `v`, `DS18B20_Write_Byte v` adds exactly 8 write
slots to the trace, slot `k` carrying bit `k` of `v` (least-significant bit first); a 1
is drive low, 2 us, release, 60 us and a 0 is drive low, 60 us, release, 2 us; each slot
requests 62 us, the byte 496 us, and the line is never read. -/
theorem C9_write_byte_encoding (v : Nat) (hv : v < 256) (s : Bus) :
    DS18B20_Write_Byte v s
      = ⟨s.line, s.reads,
          s.trace ++ (List.range 8).flatMap (fun k => writeSlot (decide (v / 2 ^ k % 2 = 1)))⟩ ∧
    writeSlot true = [Action.driveLow, Action.delay 2, Action.release, Action.delay 60] ∧
    writeSlot false = [Action.driveLow, Action.delay 60, Action.release, Action.delay 2] ∧
    (∀ b, delayTotal (writeSlot b) = 62) ∧
    delayTotal (emitted s (DS18B20_Write_Byte v s)) = 496 ∧
    sampledLevels (emitted s (DS18B20_Write_Byte v s)) = [] := by
  have h := write_byte_eq v hv s
  refine ⟨h, rfl, rfl, ?_, ?_, ?_⟩
  · intro b
    have := delayTotal_writeSlot b []
    simpa [delayTotal] using this
  · rw [h]
    simp only [emitted, List.drop_left, byteSlots_unfold, delayTotal_writeSlot, delayTotal]
  · rw [h]
    simp only [emitted, List.drop_left, byteSlots_unfold, sampledLevels_writeSlot,
      sampledLevels]

/-- Witness of C9 at `v = 0x44`. -/
theorem C9_write_byte_encoding_witness :
    0x44 < 256 ∧ delayTotal (emitted stuckHigh (DS18B20_Write_Byte 0x44 stuckHigh)) = 496 :=
  ⟨by decide, (C9_write_byte_encoding 0x44 (by decide) stuckHigh).2.2.2.2.1⟩

/-- C10. On every line, whatever the presence check returns, `DS18B20_Start` adds to the
trace exactly: one reset pulse, then the polling of the presence check (only reads of
the line and 1 us delays), then the 8 write slots of `0xCC`, then the 8 write slots of
`0x44`. -/
theorem C10_start_sequence (s : Bus) :
    DS18B20_Start s
      = DS18B20_Write_Byte 0x44 (DS18B20_Write_Byte 0xCC (DS18B20_Check (DS18B20_Rst s)).2) ∧
    ∃ p : List Action,
      (∀ a, a ∈ p → a = Action.delay 1 ∨ ∃ b, a = Action.sample b) ∧
      emitted s (DS18B20_Rst s) = resetPulse ∧
      emitted (DS18B20_Rst s) (DS18B20_Check (DS18B20_Rst s)).2 = p ∧
      emitted s (DS18B20_Start s) = resetPulse ++ p ++ byteSlots 0xCC ++ byteSlots 0x44 := by
  refine ⟨rfl, ?_⟩
  obtain ⟨p, hp, htr⟩ := check_emits_polls (DS18B20_Rst s)
  refine ⟨p, hp, ?_, ?_, ?_⟩
  · simp [emitted, rst_eq]
  · simp [emitted, htr]
  · have hs : (DS18B20_Start s).trace
        = (DS18B20_Check (DS18B20_Rst s)).2.trace ++ byteSlots 0xCC ++ byteSlots 0x44 := by
      simp [DS18B20_Start, write_byte_eq]
    rw [emitted, hs, htr, rst_eq]
    simp

/-- C11. On every line and whatever the two presence checks return, one
`DS18B20_Get_Temp` adds to the trace, in this order: a reset pulse, the polling of a
presence check, the write slots of `0xCC` and of `0x44`, a reset pulse, the polling of
a presence check, the write slots of `0xCC` and of `0xBE`, and exactly 16 read slots;
the first 8 levels read form the low byte, the last 8 the high byte, and the value
returned is the decode of these two bytes. -/
theorem C11_get_temp_sequence (s : Bus) :
    emitted s (DS18B20_Get_Temp s).2
      = resetPulse ++ emitted (DS18B20_Rst s) (DS18B20_Check (DS18B20_Rst s)).2
          ++ byteSlots 0xCC ++ byteSlots 0x44
          ++ resetPulse
          ++ emitted (DS18B20_Rst (DS18B20_Start s))
              (DS18B20_Check (DS18B20_Rst (DS18B20_Start s))).2
          ++ byteSlots 0xCC ++ byteSlots 0xBE
          ++ (List.range 16).flatMap (fun k =>
              readSlot (s.line ((DS18B20_Check (DS18B20_Rst (DS18B20_Start s))).2.reads + k))) ∧
    (∀ a, a ∈ emitted (DS18B20_Rst s) (DS18B20_Check (DS18B20_Rst s)).2 →
      a = Action.delay 1 ∨ ∃ b, a = Action.sample b) ∧
    (∀ a, a ∈ emitted (DS18B20_Rst (DS18B20_Start s))
        (DS18B20_Check (DS18B20_Rst (DS18B20_Start s))).2 →
      a = Action.delay 1 ∨ ∃ b, a = Action.sample b) ∧
    (Get_Temp_bytes s).1.1
      = ∑ k in Finset.range 8,
          bitVal (s.line ((DS18B20_Check (DS18B20_Rst (DS18B20_Start s))).2.reads + k)) * 2 ^ k ∧
    (Get_Temp_bytes s).1.2
      = ∑ k in Finset.range 8,
          bitVal (s.line ((DS18B20_Check (DS18B20_Rst (DS18B20_Start s))).2.reads + 8 + k))
            * 2 ^ k ∧
    (DS18B20_Get_Temp s).1 = Get_Temp_decode (Get_Temp_bytes s).1.1 (Get_Temp_bytes s).1.2 := by
  refine ⟨get_temp_emitted s, check_poll_only _, check_poll_only _, ?_, ?_, rfl⟩
  · rw [get_temp_bytes_eq]
    simp only [byteAt, Finset.sum_range_succ, Finset.sum_range_zero, Nat.add_zero]
    omega
  · rw [get_temp_bytes_eq]
    simp only [byteAt, Finset.sum_range_succ, Finset.sum_range_zero, Nat.add_zero]
    omega

/-- C12. `DS18B20_Read_Bit` drives the line low, delays 2 us, releases, delays 12 us, reads
the line exactly once, then delays 50 us; it returns 1 when that read is high and 0 when
it is low, and no other value. -/
theorem C12_read_bit (s : Bus) :
    DS18B20_Read_Bit s
      = (bitVal (s.line s.reads),
         ⟨s.line, s.reads + 1,
          s.trace ++ [Action.driveLow, Action.delay 2, Action.release, Action.delay 12,
            Action.sample (s.line s.reads), Action.delay 50]⟩) ∧
    ((DS18B20_Read_Bit s).1 = 1 ↔ s.line s.reads = true) ∧
    ((DS18B20_Read_Bit s).1 = 0 ↔ s.line s.reads = false) ∧
    ((DS18B20_Read_Bit s).1 = 0 ∨ (DS18B20_Read_Bit s).1 = 1) := by
  have h := read_bit_eq s
  refine ⟨by rw [h]; rfl, ?_, ?_, ?_⟩ <;> rw [h] <;> cases s.line s.reads <;> simp

/-- C13. Reset pulse width: `DS18B20_Rst` adds exactly drive low, 750 us, release, 15 us
to the trace, and in `DS18B20_Init`, `DS18B20_Start` and `DS18B20_Get_Temp` every reset
holds the line low for 750 us: listing for each drive-low the microseconds requested
before the next release, `DS18B20_Init` gives 750; `DS18B20_Start` gives 750 followed by
the 16 write-slot widths of `0xCC`, `0x44`; `DS18B20_Get_Temp` gives 750, the 16
write-slot widths of `0xCC`, `0x44`, again 750, the 16 write-slot widths of `0xCC`,
`0xBE`, and the 16 read-slot widths of 2 us. -/
theorem C13_reset_pulse_width (s : Bus) :
    emitted s (DS18B20_Rst s)
      = [Action.driveLow, Action.delay 750, Action.release, Action.delay 15] ∧
    lowWidths (emitted s (DS18B20_Rst s)) = [750] ∧
    lowWidths (emitted s (DS18B20_Init s).2) = [750] ∧
    lowWidths (emitted s (DS18B20_Start s))
      = [750, 60, 60, 2, 2, 60, 60, 2, 2, 60, 60, 2, 60, 60, 60, 2, 60] ∧
    lowWidths (emitted s (DS18B20_Get_Temp s).2)
      = [750, 60, 60, 2, 2, 60, 60, 2, 2, 60, 60, 2, 60, 60, 60, 2, 60,
         750, 60, 60, 2, 2, 60, 60, 2, 2, 60, 2, 2, 2, 2, 2, 60, 2,
         2, 2, 2, 2, 2, 2, 2, 2, 2, 2, 2, 2, 2, 2, 2, 2] := by
  have hr : emitted s (DS18B20_Rst s) = resetPulse := by simp [emitted, rst_eq]
  have hcc : (List.range 8).map (fun k => if bitOf 0xCC k then 2 else 60)
      = [60, 60, 2, 2, 60, 60, 2, 2] := by decide
  have h44 : (List.range 8).map (fun k => if bitOf 0x44 k then 2 else 60)
      = [60, 60, 2, 60, 60, 60, 2, 60] := by decide
  have hbe : (List.range 8).map (fun k => if bitOf 0xBE k then 2 else 60)
      = [60, 2, 2, 2, 2, 2, 60, 2] := by decide
  refine ⟨by rw [hr]; rfl, by rw [hr]; rfl, ?_, ?_, ?_⟩
  · rw [init_emitted]
    have hp := check_poll_only (DS18B20_Rst (SET_DS18B20 s))
    generalize emitted (DS18B20_Rst (SET_DS18B20 s))
      (DS18B20_Check (DS18B20_Rst (SET_DS18B20 s))).2 = p at hp ⊢
    have := lowWidths_polls p [] hp
    rw [List.append_nil] at this
    show lowWidths (resetPulse ++ p) = [750]
    rw [lowWidths_resetPulse, this]
    rfl
  · rw [start_emitted]
    have hp := check_poll_only (DS18B20_Rst s)
    generalize emitted (DS18B20_Rst s) (DS18B20_Check (DS18B20_Rst s)).2 = p at hp ⊢
    have h0 := lowWidths_byteSlots 0x44 []
    rw [List.append_nil] at h0
    simp only [List.append_assoc, lowWidths_resetPulse, lowWidths_polls _ _ hp,
      lowWidths_byteSlots, h0, hcc, h44]
    rfl
  · rw [get_temp_emitted]
    have hp := check_poll_only (DS18B20_Rst s)
    have hq := check_poll_only (DS18B20_Rst (DS18B20_Start s))
    generalize emitted (DS18B20_Rst (DS18B20_Start s))
      (DS18B20_Check (DS18B20_Rst (DS18B20_Start s))).2 = q at hq ⊢
    generalize (DS18B20_Check (DS18B20_Rst (DS18B20_Start s))).2.reads = m
    generalize emitted (DS18B20_Rst s) (DS18B20_Check (DS18B20_Rst s)).2 = p at hp ⊢
    simp only [List.append_assoc, lowWidths_resetPulse, lowWidths_polls _ _ hp,
      lowWidths_polls _ _ hq, lowWidths_byteSlots, lowWidths_readSlots, hcc, h44, hbe]
    rfl

/-- C14, at its failing input: the scratchpad bytes `0xD0`, `0x07` hold the raw value 2000,
i.e. 125 degrees Celsius, the top of the rated range; the decode step of
`DS18B20_Get_Temp` returns 1250, which is not 125 and lies outside the documented range
of -55 to 125. -/
theorem C14_degrees_failing_input :
    rawReading 0xD0 0x07 = 2000 ∧ specDegrees (rawReading 0xD0 0x07) = 125 ∧
      Get_Temp_decode 0xD0 0x07 = 1250 ∧ ¬ (Get_Temp_decode 0xD0 0x07 ≤ 125) := by
  decide

/-- C15, as stated, fails: on a line whose first read is high and whose next seven reads
are low, `DS18B20_Read_Byte` returns `0x01`; bit 7 of the result is 0 although the first
bit read was 1. -/
theorem C15_first_bit_position_counterexample :
    firstBitHigh.line firstBitHigh.reads = true ∧
      (DS18B20_Read_Byte firstBitHigh).1 = 0x01 ∧
      (DS18B20_Read_Byte firstBitHigh).1 / 2 ^ 7 % 2 = 0 := by
  rw [read_byte_eq]
  simp [firstBitHigh, replay, bitVal]

/-- C15, amended. The first bit `DS18B20_Read_Byte` reads enters the byte at bit 7 (after
one round `dat` is 128 times that bit) and the seven further right shifts bring it to
bit 0 of the byte returned; the eighth bit read is the one at bit 7; in general bit `k`
of the result is the `(k+1)`-th bit read. -/
theorem C15_first_bit_position (s : Bus) :
    (readByteLoop 1 0 s).1 = 128 * bitVal (s.line s.reads) ∧
    (DS18B20_Read_Byte s).1 % 2 = bitVal (s.line s.reads) ∧
    (DS18B20_Read_Byte s).1 / 2 ^ 7 % 2 = bitVal (s.line (s.reads + 7)) ∧
    (List.range 8).map (fun k => (DS18B20_Read_Byte s).1 / 2 ^ k % 2)
      = (List.range 8).map (fun k => bitVal (s.line (s.reads + k))) := by
  have h0 := bitVal_le (s.line s.reads)
  have h1 := bitVal_le (s.line (s.reads + 1))
  have h2 := bitVal_le (s.line (s.reads + 2))
  have h3 := bitVal_le (s.line (s.reads + 3))
  have h4 := bitVal_le (s.line (s.reads + 4))
  have h5 := bitVal_le (s.line (s.reads + 5))
  have h6 := bitVal_le (s.line (s.reads + 6))
  have h7 := bitVal_le (s.line (s.reads + 7))
  refine ⟨?_, ?_, ?_, ?_⟩
  · rw [readByteLoop_eq 1 0 s (by decide)]
    simp only [shiftIn, Nat.add_zero]
    omega
  · rw [read_byte_eq]
    simp only
    omega
  · rw [read_byte_eq]
    simp only [Nat.reducePow]
    omega
  · rw [read_byte_eq]
    simp only [List.range_succ, List.range_zero, List.nil_append, List.cons_append,
      List.map_cons, List.map_nil, Nat.reducePow, Nat.add_zero, List.cons.injEq, and_true]
    refine ⟨?_, ?_, ?_, ?_, ?_, ?_, ?_, ?_⟩ <;> omega

/-- C16. Bounded polling: on every line `DS18B20_Check` ends (allowing either loop more
evaluations of its condition changes nothing), adds to the trace only reads of the line
and 1 us delays, requests as many delays in each loop as the value `retry` ends with,
at most 200 in the first loop and at most 240 in the second, at most 440 in all; and
when a loop ends with `retry` at its bound the function returns 1 with the bus as that
loop left it: the trace of that loop is its 200 (resp. 240) rounds of read and delay and
the one read of its last test, and nothing follows it. -/
theorem C16_check_bounded_polling (s : Bus) :
    (∀ extra, pollWhile true 200 (201 + extra) 0 s = pollWhile true 200 201 0 s) ∧
    (∀ extra, pollWhile false 240 (241 + extra) 0 (pollWhile true 200 201 0 s).2
      = pollWhile false 240 241 0 (pollWhile true 200 201 0 s).2) ∧
    (∀ a, a ∈ emitted s (DS18B20_Check s).2 →
      a = Action.delay 1 ∨ ∃ b, a = Action.sample b) ∧
    delayTotal (emitted s (pollWhile true 200 201 0 s).2) = (pollWhile true 200 201 0 s).1 ∧
    (pollWhile true 200 201 0 s).1 ≤ 200 ∧
    delayTotal (emitted (pollWhile true 200 201 0 s).2
        (pollWhile false 240 241 0 (pollWhile true 200 201 0 s).2).2)
      = (pollWhile false 240 241 0 (pollWhile true 200 201 0 s).2).1 ∧
    (pollWhile false 240 241 0 (pollWhile true 200 201 0 s).2).1 ≤ 240 ∧
    delayTotal (emitted s (DS18B20_Check s).2) ≤ 440 ∧
    (((pollWhile true 200 201 0 s).1 = 200 ∧
        DS18B20_Check s = (1, (pollWhile true 200 201 0 s).2) ∧
        emitted s (DS18B20_Check s).2
          = polls true 200 ++ [Action.sample (s.line (s.reads + 200))]) ∨
     ((pollWhile true 200 201 0 s).1 < 200 ∧
        (pollWhile false 240 241 0 (pollWhile true 200 201 0 s).2).1 = 240 ∧
        DS18B20_Check s = (1, (pollWhile false 240 241 0 (pollWhile true 200 201 0 s).2).2) ∧
        emitted (pollWhile true 200 201 0 s).2 (DS18B20_Check s).2
          = polls false 240
              ++ [Action.sample (s.line ((pollWhile true 200 201 0 s).2.reads + 240))]) ∨
     ((pollWhile true 200 201 0 s).1 < 200 ∧
        (pollWhile false 240 241 0 (pollWhile true 200 201 0 s).2).1 < 240 ∧
        DS18B20_Check s
          = (0, (pollWhile false 240 241 0 (pollWhile true 200 201 0 s).2).2))) := by
  have hfuel1 : ∀ extra, pollWhile true 200 (201 + extra) 0 s = pollWhile true 200 201 0 s :=
    fun extra => pollWhile_fuel true 200 (by decide) (201 + extra) 0 s (by decide) (by omega)
  have hfuel2 : ∀ (t : Bus) (extra : Nat),
      pollWhile false 240 (241 + extra) 0 t = pollWhile false 240 241 0 t :=
    fun t extra => pollWhile_fuel false 240 (by decide) (241 + extra) 0 t (by decide) (by omega)
  obtain ⟨n1, hn1, _, e1⟩ := pollWhile_summary true 200 (by decide) 0 s
  obtain ⟨n2, hn2, _, e2⟩ := pollWhile_summary false 240 (by decide) 0 (afterPoll true n1 s)
  simp only [Nat.reduceAdd, Nat.add_zero] at e1 e2
  have hd1 : delayTotal (emitted s (afterPoll true n1 s)) = n1 := by
    rw [emitted_afterPoll, delayTotal_append, delayTotal_polls, delayTotal_sample]
    omega
  have hd2 : delayTotal (emitted (afterPoll true n1 s) (afterPoll false n2 (afterPoll true n1 s)))
      = n2 := by
    rw [emitted_afterPoll, delayTotal_append, delayTotal_polls, delayTotal_sample]
    omega
  refine ⟨hfuel1, hfuel2 _, check_poll_only s, ?_, ?_, ?_, ?_, ?_, ?_⟩
  · rw [e1]; exact hd1
  · rw [e1]; exact hn1
  · rw [e1, e2]; exact hd2
  · rw [e1, e2]; exact hn2
  · have := check_delay_le s
    omega
  · have hc : DS18B20_Check s
        = if n1 ≥ 200 then (1, afterPoll true n1 s)
          else if n2 ≥ 240 then (1, afterPoll false n2 (afterPoll true n1 s))
          else (0, afterPoll false n2 (afterPoll true n1 s)) := by
      unfold DS18B20_Check
      simp only [e1]
      simp only [e2]
    simp only [e1]
    simp only [e2]
    by_cases h1 : n1 = 200
    · left
      subst h1
      have hc1 : DS18B20_Check s = (1, afterPoll true 200 s) := by rw [hc]; simp
      exact ⟨rfl, hc1, by rw [hc1]; exact emitted_afterPoll true 200 s⟩
    · right
      have hge : ¬ (n1 ≥ 200) := by omega
      by_cases h2 : n2 = 240
      · left
        subst h2
        have hc2 : DS18B20_Check s = (1, afterPoll false 240 (afterPoll true n1 s)) := by
          rw [hc]; simp [hge]
        exact ⟨by omega, rfl, hc2, by rw [hc2]; exact emitted_afterPoll false 240 _⟩
      · right
        have hge2 : ¬ (n2 ≥ 240) := by omega
        exact ⟨by omega, by omega, by rw [hc]; simp [hge, hge2]⟩

/-- C17, as stated, fails: on a line stuck high one `DS18B20_Get_Temp` requests delays of
4938 us in all, more than 2000 us. -/
theorem C17_bus_time_counterexample :
    delayTotal (emitted stuckHigh (DS18B20_Get_Temp stuckHigh).2) = 4938 ∧
      ¬ (delayTotal (emitted stuckHigh (DS18B20_Get_Temp stuckHigh).2) ≤ 2000) := by
  have hA : ∀ t : Bus, (∀ k, t.line k = true) →
      delayTotal (emitted t (DS18B20_Check t).2) = 200 := by
    intro t ht
    rw [check_all_high t ht, emitted_afterPoll, delayTotal_append, delayTotal_polls,
      delayTotal_sample]
  have h1 := hA (DS18B20_Rst stuckHigh) (fun k => by rw [rst_line]; rfl)
  have h2 := hA (DS18B20_Rst (DS18B20_Start stuckHigh))
    (fun k => by rw [rst_line, start_line]; rfl)
  rw [get_temp_delay, h1, h2]
  decide

/-- C17, amended. Active bus time of a full read: on every line the delays requested
during one `DS18B20_Get_Temp` sum to 4538 us (two reset pulses of 765 us, four byte
writes of 496 us, sixteen read slots of 64 us) plus the 1 us delays of the two presence
checks, at most 439 each: at least 4538 us and at most 5416 us. -/
theorem C17_bus_time (s : Bus) :
    delayTotal (emitted s (DS18B20_Get_Temp s).2)
      = 2 * 765 + 4 * 496 + 16 * 64
          + delayTotal (emitted (DS18B20_Rst s) (DS18B20_Check (DS18B20_Rst s)).2)
          + delayTotal (emitted (DS18B20_Rst (DS18B20_Start s))
              (DS18B20_Check (DS18B20_Rst (DS18B20_Start s))).2) ∧
    4538 ≤ delayTotal (emitted s (DS18B20_Get_Temp s).2) ∧
    delayTotal (emitted s (DS18B20_Get_Temp s).2) ≤ 5416 := by
  have h := get_temp_delay s
  have h1 := check_delay_le (DS18B20_Rst s)
  have h2 := check_delay_le (DS18B20_Rst (DS18B20_Start s))
  refine ⟨?_, ?_, ?_⟩ <;> omega

/-- C18. A missing sensor reads as zero: when every read of the line is high, or every read
is low, both presence checks inside `DS18B20_Get_Temp` return 1, the 16 read slots are
still performed, and the value returned is 0, the value decoded from an all-zero
scratchpad. -/
theorem C18_missing_sensor_reads_zero (s : Bus)
    (h : (∀ k, s.line k = true) ∨ (∀ k, s.line k = false)) :
    (DS18B20_Check (DS18B20_Rst s)).1 = 1 ∧
    (DS18B20_Check (DS18B20_Rst (DS18B20_Start s))).1 = 1 ∧
    (DS18B20_Get_Temp s).2.reads
      = (DS18B20_Check (DS18B20_Rst (DS18B20_Start s))).2.reads + 16 ∧
    (DS18B20_Get_Temp s).1 = 0 ∧
    (DS18B20_Get_Temp s).1 = Get_Temp_decode 0 0 := by
  have hreads : (DS18B20_Get_Temp s).2.reads
      = (DS18B20_Check (DS18B20_Rst (DS18B20_Start s))).2.reads + 16 := by
    have e : (DS18B20_Get_Temp s).2 = (Get_Temp_bytes s).2 := rfl
    rw [e, get_temp_bytes_eq]
  have hval : (DS18B20_Get_Temp s).1 = 0 := by
    rw [get_temp_value]
    rcases h with hh | hl
    · simp only [byteAt, hh, bitVal, if_true]
      decide
    · simp only [byteAt, hl, bitVal, Bool.false_eq_true, if_false]
      decide
  refine ⟨?_, ?_, hreads, hval, by rw [hval]; decide⟩
  · rcases h with hh | hl
    · rw [check_all_high _ (fun k => by rw [rst_line]; exact hh k)]
    · rw [check_all_low _ (fun k => by rw [rst_line]; exact hl k)]
  · rcases h with hh | hl
    · rw [check_all_high _ (fun k => by rw [rst_line, start_line]; exact hh k)]
    · rw [check_all_low _ (fun k => by rw [rst_line, start_line]; exact hl k)]

/-- Witness of C18: the line stuck high and the line stuck low. -/
theorem C18_missing_sensor_reads_zero_witness :
    (∀ k, stuckHigh.line k = true) ∧ (DS18B20_Get_Temp stuckHigh).1 = 0 ∧
    (∀ k, stuckLow.line k = false) ∧ (DS18B20_Get_Temp stuckLow).1 = 0 :=
  ⟨fun _ => rfl, (C18_missing_sensor_reads_zero stuckHigh (Or.inl (fun _ => rfl))).2.2.2.1,
   fun _ => rfl, (C18_missing_sensor_reads_zero stuckLow (Or.inr (fun _ => rfl))).2.2.2.1⟩

/-- C19. Monotone decode: over the sign-extended 12-bit readings (high byte at most `0x07`
or at least `0xF8`), which are the raw two's-complement values from -2048 to 2047, the
decode step of `DS18B20_Get_Temp` is non-decreasing in the raw value; in particular the
decode of `0xFFFF` is at most the decode of `0x0000`. -/
theorem C19_decode_monotone (TL1 TH1 TL2 TH2 : Nat) (h1 : TL1 < 256) (h2 : TL2 < 256)
    (hs1 : TH1 ≤ 7 ∨ (0xF8 ≤ TH1 ∧ TH1 < 256)) (hs2 : TH2 ≤ 7 ∨ (0xF8 ≤ TH2 ∧ TH2 < 256))
    (hle : rawReading TL1 TH1 ≤ rawReading TL2 TH2) :
    Get_Temp_decode TL1 TH1 ≤ Get_Temp_decode TL2 TH2 ∧
    -2048 ≤ rawReading TL1 TH1 ∧ rawReading TL2 TH2 ≤ 2047 ∧
    Get_Temp_decode 0xFF 0xFF ≤ Get_Temp_decode 0x00 0x00 := by
  refine ⟨decode_monotone TL1 TH1 TL2 TH2 h1 h2 hs1 hs2 hle, ?_, ?_, by decide⟩
  · rcases hs1 with p | ⟨l, u⟩
    · rw [rawReading_low _ _ h1 p]; omega
    · rw [rawReading_high _ _ h1 (by omega) u]; omega
  · rcases hs2 with p | ⟨l, u⟩
    · rw [rawReading_low _ _ h2 p]; omega
    · rw [rawReading_high _ _ h2 (by omega) u]; omega

/-- Witness of C19 across the zero crossing: raw -1 (`0xFFFF`) against raw 0 (`0x0000`). -/
theorem C19_decode_monotone_witness :
    rawReading 0xFF 0xFF ≤ rawReading 0x00 0x00 ∧
      Get_Temp_decode 0xFF 0xFF ≤ Get_Temp_decode 0x00 0x00 :=
  ⟨by decide,
   (C19_decode_monotone 0xFF 0xFF 0x00 0x00 (by decide) (by decide) (Or.inr (by decide))
      (Or.inl (by decide)) (by decide)).1⟩

/-- C20, as stated, fails: the line actions of `DS18B20_Read_Bit` (here on a line stuck
high) are drive low, release, read; the last of them is the read of the line, not a
release. -/
theorem C20_line_discipline_counterexample :
    lineActions (emitted stuckHigh (DS18B20_Read_Bit stuckHigh).2)
      = [Action.driveLow, Action.release, Action.sample true] ∧
    (lineActions (emitted stuckHigh (DS18B20_Read_Bit stuckHigh).2)).getLast?
      ≠ some Action.release := by
  decide

/-- C20, amended. Line discipline: in the line actions each of `DS18B20_Rst`,
`DS18B20_Read_Bit`, `DS18B20_Read_Byte`, `DS18B20_Write_Byte`, `DS18B20_Init`,
`DS18B20_Start` and `DS18B20_Get_Temp` adds to the trace, whatever the argument, the line
and the state of the pin before: (1) no read of the line is taken while the driver holds
the line low, every drive-low being followed by a release before the next read, and the
line is not held low at the end; (2) the line actions are exactly the listed ones; (3)
the last write to the pin is a release; (4) that release is the last line action of
`DS18B20_Rst`, `DS18B20_Write_Byte` and `DS18B20_Start`, while in `DS18B20_Read_Bit`,
`DS18B20_Read_Byte`, `DS18B20_Init` and `DS18B20_Get_Temp` reads of the released line
follow it and the last line action is a read. -/
theorem C20_line_discipline (s : Bus) (held : Bool) (v : Nat) :
    (lineWalk held (emitted s (DS18B20_Rst s)) = some false ∧
     lineWalk held (emitted s (DS18B20_Read_Bit s).2) = some false ∧
     lineWalk held (emitted s (DS18B20_Read_Byte s).2) = some false ∧
     lineWalk held (emitted s (DS18B20_Write_Byte v s)) = some false ∧
     lineWalk held (emitted s (DS18B20_Init s).2) = some false ∧
     lineWalk held (emitted s (DS18B20_Start s)) = some false ∧
     lineWalk held (emitted s (DS18B20_Get_Temp s).2) = some false) ∧
    (lineActions (emitted s (DS18B20_Rst s)) = [Action.driveLow, Action.release] ∧
     lineActions (emitted s (DS18B20_Read_Bit s).2)
       = [Action.driveLow, Action.release, Action.sample (s.line s.reads)] ∧
     lineActions (emitted s (DS18B20_Read_Byte s).2)
       = (List.range 8).flatMap (fun k =>
           [Action.driveLow, Action.release, Action.sample (s.line (s.reads + k))]) ∧
     lineActions (emitted s (DS18B20_Write_Byte v s)) = pulsePairs 8 ∧
     lineActions (emitted s (DS18B20_Init s).2)
       = [Action.release, Action.driveLow, Action.release]
           ++ sampleActions (emitted (DS18B20_Rst (SET_DS18B20 s))
               (DS18B20_Check (DS18B20_Rst (SET_DS18B20 s))).2) ∧
     lineActions (emitted s (DS18B20_Start s))
       = [Action.driveLow, Action.release]
           ++ sampleActions (emitted (DS18B20_Rst s) (DS18B20_Check (DS18B20_Rst s)).2)
           ++ pulsePairs 16 ∧
     lineActions (emitted s (DS18B20_Get_Temp s).2)
       = [Action.driveLow, Action.release]
           ++ sampleActions (emitted (DS18B20_Rst s) (DS18B20_Check (DS18B20_Rst s)).2)
           ++ pulsePairs 16
           ++ [Action.driveLow, Action.release]
           ++ sampleActions (emitted (DS18B20_Rst (DS18B20_Start s))
               (DS18B20_Check (DS18B20_Rst (DS18B20_Start s))).2)
           ++ pulsePairs 16
           ++ (List.range 16).flatMap (fun k =>
               [Action.driveLow, Action.release,
                Action.sample
                  (s.line ((DS18B20_Check (DS18B20_Rst (DS18B20_Start s))).2.reads + k))])) ∧
    ((pinWrites (emitted s (DS18B20_Rst s))).getLast? = some Action.release ∧
     (pinWrites (emitted s (DS18B20_Read_Bit s).2)).getLast? = some Action.release ∧
     (pinWrites (emitted s (DS18B20_Read_Byte s).2)).getLast? = some Action.release ∧
     (pinWrites (emitted s (DS18B20_Write_Byte v s))).getLast? = some Action.release ∧
     (pinWrites (emitted s (DS18B20_Init s).2)).getLast? = some Action.release ∧
     (pinWrites (emitted s (DS18B20_Start s))).getLast? = some Action.release ∧
     (pinWrites (emitted s (DS18B20_Get_Temp s).2)).getLast? = some Action.release) ∧
    ((lineActions (emitted s (DS18B20_Rst s))).getLast? = some Action.release ∧
     (lineActions (emitted s (DS18B20_Write_Byte v s))).getLast? = some Action.release ∧
     (lineActions (emitted s (DS18B20_Start s))).getLast? = some Action.release ∧
     (lineActions (emitted s (DS18B20_Read_Bit s).2)).getLast?
       = some (Action.sample (s.line s.reads)) ∧
     (lineActions (emitted s (DS18B20_Read_Byte s).2)).getLast?
       = some (Action.sample (s.line (s.reads + 7))) ∧
     (∃ b, (lineActions (emitted s (DS18B20_Init s).2)).getLast? = some (Action.sample b)) ∧
     (lineActions (emitted s (DS18B20_Get_Temp s).2)).getLast?
       = some (Action.sample
           (s.line ((DS18B20_Check (DS18B20_Rst (DS18B20_Start s))).2.reads + 15)))) := by
  have hl := discipline_last s v
  exact ⟨discipline_walk s held v, discipline_actions s v, hl.1, hl.2⟩

end DS18B20
